import Mathlib

/-! m3u8-proxy: the response rewriting engine of `proxy/proxy.go`

A shallow embedding of `proxy.go` and of the library calls it makes
(`strconv.ParseInt`, `regexp.FindStringSubmatch` for the one pattern the proxy
compiles, `url.Values`, `http.Header`, and the ring buffer behind
`m3u8.MediaPlaylist`), followed by theorems about the rewrite.

Go strings are lists of runes (`List Char`); bodies are lists of bytes.
-/

namespace Proxy

deriving instance DecidableEq for Except

/-! ## strconv -/

/-- The two sentinel causes a `*strconv.NumError` can carry. -/
inductive NumError where
  | ErrSyntax
  | ErrRange
deriving DecidableEq, Repr

/-- The digit test `'0' <= c && c <= '9'`. -/
def isDigit (c : Char) : Bool := decide (48 ≤ c.toNat) && decide (c.toNat ≤ 57)

/-- The value `c - '0'` of a decimal digit `c`. -/
def digitVal (c : Char) : Nat := c.toNat - 48

/-- The constant `maxUint64` of `strconv`. -/
def maxUint64 : Nat := 2 ^ 64 - 1

/-- The loop of `strconv.ParseUint(s, 10, 64)`: `n` is the accumulator (a `uint64`).
The result is the pair `(value, err)` the Go function returns: a byte that is not a
decimal digit gives `(0, ErrSyntax)`, an overflow gives `(maxVal, ErrRange)` at
the digit where it is detected. -/
def parseUintLoop : List Char → Nat → Nat × Option NumError
  | [], n => (n, none)
  | c :: cs, n =>
    if isDigit c then
      -- cutoff = maxUint64/10 + 1: the smallest number with cutoff*base > maxUint64
      if n ≥ maxUint64 / 10 + 1 then (maxUint64, some .ErrRange)
      else
        let n10 := (n * 10) % 2 ^ 64
        let n1 := (n10 + digitVal c) % 2 ^ 64
        if n1 < n10 ∨ n1 > maxUint64 then (maxUint64, some .ErrRange)
        else parseUintLoop cs n1
    else (0, some .ErrSyntax)

/-- Model of `strconv.ParseUint(s, 10, 64)`. -/
def ParseUint (s : List Char) : Nat × Option NumError :=
  if s = [] then (0, some .ErrSyntax) else parseUintLoop s 0

/-- Model of `strconv.ParseInt(s, 10, 64)`: an optional sign, then `ParseUint`, then the
signed range check against `cutoff = 1 << 63`. -/
def ParseInt (s : List Char) : Except NumError Int :=
  match s with
  | [] => .error .ErrSyntax
  | c :: cs =>
    let neg := decide (c = '-')
    let digits := if c = '+' ∨ c = '-' then cs else c :: cs
    match ParseUint digits with
    | (_, some .ErrSyntax) => .error .ErrSyntax
    | (un, _) =>
      if ¬ neg ∧ un ≥ 2 ^ 63 then .error .ErrRange
      else if neg ∧ un > 2 ^ 63 then .error .ErrRange
      else .ok (if neg then - (un : Int) else (un : Int))

/-- Model of `strconv.Itoa` on a non-negative length. -/
def Itoa (n : Nat) : List Char := Nat.toDigits 10 n

/-! ## the segment pattern -/

/-- The line feed, the one rune `.` does not match. -/
def newline : Char := Char.ofNat 10

/-- The tail `(\d+)\..*` of the pattern matched at the head of the input, by
backtracking with the greedy `\d+` trying the longer run first. The result is
the text captured by group 1. -/
def matchDigitsDot : List Char → Option (List Char)
  | [] => none
  | c :: cs =>
    if isDigit c then
      match matchDigitsDot cs with
      | some ds => some (c :: ds)
      | none => if cs.head? = some '.' then some [c] else none
    else none

/-- The pattern's `-(\d+)\..*` matched at the head of the input. -/
def matchHyphen : List Char → Option (List Char)
  | [] => none
  | c :: cs => if c = '-' then matchDigitsDot cs else none

/-- The whole pattern `.*-(\d+)\..*` matched at the head of the input: the greedy
`.*` first tries to take one more rune (any but a line feed), and only when the
rest cannot match that way does it stop here. -/
def matchHere : List Char → Option (List Char)
  | [] => none
  | c :: cs =>
    if c ≠ newline then
      match matchHere cs with
      | some ds => some ds
      | none => matchHyphen (c :: cs)
    else matchHyphen (c :: cs)

/-- Model of `segmentRegex.FindStringSubmatch(uri)` reduced to group 1 (`parts[1]`); `none`
is the nil slice. The search is unanchored and leftmost: the first start position
with a match wins. -/
def FindStringSubmatch : List Char → Option (List Char)
  | [] => none
  | c :: cs =>
    match matchHere (c :: cs) with
    | some ds => some ds
    | none => FindStringSubmatch cs

/-! ## map[string][]string: url.Values and http.Header -/

/-- A Go `map[string][]string` as an association list; a key is looked up at its
first entry. -/
abbrev StrMap := List (List Char × List (List Char))

/-- Indexing with the comma-ok form, `vs, found := m[key]`. -/
def StrMap.index (m : StrMap) (key : List Char) : Option (List (List Char)) :=
  match m with
  | [] => none
  | (k, vs) :: rest => if k = key then some vs else StrMap.index rest key

/-- Assignment `m[key] = vs`. -/
def StrMap.assign (m : StrMap) (key : List Char) (vs : List (List Char)) : StrMap :=
  match m with
  | [] => [(key, vs)]
  | (k, ws) :: rest => if k = key then (key, vs) :: rest else (k, ws) :: StrMap.assign rest key vs

/-- Model of `url.Values.Has`. -/
def StrMap.Has (m : StrMap) (key : List Char) : Bool := (m.index key).isSome

/-- Model of `url.Values.Get` and `http.Header.Get` (for a key in canonical form): the
first value stored under the key, or the empty string. -/
def StrMap.Get (m : StrMap) (key : List Char) : List Char :=
  match m.index key with
  | some (v :: _) => v
  | _ => []

/-- Model of `http.Header.Set` (for a key in canonical form). -/
def StrMap.Set (m : StrMap) (key value : List Char) : StrMap := m.assign key [value]

/-- The table lookup `upperhex[n]`. -/
def upperhex (n : Nat) : Char :=
  if n < 10 then Char.ofNat (48 + n) else Char.ofNat (55 + n)

/-- The UTF-8 bytes of a rune. -/
def utf8Bytes (c : Char) : List Nat :=
  let n := c.toNat
  if n < 128 then [n]
  else if n < 2048 then [192 + n / 64, 128 + n % 64]
  else if n < 65536 then [224 + n / 4096, 128 + (n / 64) % 64, 128 + n % 64]
  else [240 + n / 262144, 128 + (n / 4096) % 64, 128 + (n / 64) % 64, 128 + n % 64]

/-- Model of `shouldEscape(c, encodeQueryComponent)`: only ASCII letters, digits and
`-`, `_`, `.`, `~` are written as they are. -/
def shouldEscape (b : Nat) : Bool :=
  if (97 ≤ b ∧ b ≤ 122) ∨ (65 ≤ b ∧ b ≤ 90) ∨ (48 ≤ b ∧ b ≤ 57) then false
  else if b = 45 ∨ b = 95 ∨ b = 46 ∨ b = 126 then false
  else true

/-- One byte of `url.QueryEscape`. -/
def escapeByte (b : Nat) : List Char :=
  if b = 32 then ['+']
  else if shouldEscape b then ['%', upperhex (b / 16), upperhex (b % 16)]
  else [Char.ofNat b]

/-- Model of `url.QueryEscape`. -/
def QueryEscape (s : List Char) : List Char :=
  (s.flatMap utf8Bytes).flatMap escapeByte

/-- Go's `<` on strings (byte-wise, which on valid UTF-8 is rune-wise). -/
def strLess : List Char → List Char → Bool
  | _, [] => false
  | [], _ :: _ => true
  | a :: as, b :: bs => if a.toNat < b.toNat then true else if b.toNat < a.toNat then false else strLess as bs

/-- Insertion of a key into a sorted key list. -/
def insertKey (k : List Char) : List (List Char) → List (List Char)
  | [] => [k]
  | x :: xs => if strLess x k then x :: insertKey k xs else k :: x :: xs

/-- Model of `slices.Sort(keys)`. -/
def sortKeys (ks : List (List Char)) : List (List Char) := ks.foldr insertKey []

/-- The `key=value` items `url.Values.Encode` writes for one key. -/
def encodeKey (m : StrMap) (k : List Char) : List (List Char) :=
  ((m.index k).getD []).map (fun v => QueryEscape k ++ '=' :: QueryEscape v)

/-- Model of `url.Values.Encode`: the keys in sorted order, each value as
`QueryEscape(key)=QueryEscape(value)`, joined by `&`. -/
def StrMap.Encode (m : StrMap) : List Char :=
  List.intercalate ['&'] ((sortKeys (m.map Prod.fst).dedup).flatMap (encodeKey m))

/-! ## m3u8 playlists -/

/-- Model of `m3u8.MediaSegment`. The proxy reads the `URI` only; the other fields travel
with the segment unread (the `SeqId` bookkeeping of `AppendSegment` is left out). -/
structure MediaSegment where
  URI : List Char
  Title : List Char
deriving DecidableEq, Repr

/-- Model of `m3u8.MediaPlaylist`: the fields the proxy touches and the ring buffer state
(`winsize`, `capacity`, `head`, `tail`, `count`) behind `Segments`. -/
structure MediaPlaylist where
  Segments : List (Option MediaSegment)
  SeqNo : Nat
  DiscontinuitySeq : Nat
  Closed : Bool
  winsize : Nat
  capacity : Nat
  head : Nat
  tail : Nat
  count : Nat
deriving DecidableEq, Repr

/-- Model of `m3u8.MasterPlaylist`: the variant references and the query suffix `Args`. -/
structure MasterPlaylist where
  Variants : List (List Char)
  Args : List Char
deriving DecidableEq, Repr

/-- Model of `MediaPlaylist.Count`. -/
def MediaPlaylist.Count (p : MediaPlaylist) : Nat := p.count

/-- The present (non-nil) entries of `Segments`, in slice order: what a
`range` over `Segments` that skips nil sees. -/
def MediaPlaylist.present (p : MediaPlaylist) : List MediaSegment := p.Segments.reduceOption

/-- Model of `m3u8.NewMediaPlaylist(winsize, capacity)`: `none` is its one error,
`winsize > capacity`. -/
def NewMediaPlaylist (winsize capacity : Nat) : Option MediaPlaylist :=
  if winsize > capacity then none
  else some
    { Segments := List.replicate capacity none, SeqNo := 0, DiscontinuitySeq := 0,
      Closed := false, winsize := winsize, capacity := capacity, head := 0, tail := 0,
      count := 0 }

/-- What a call of `AppendSegment` does: it stores the segment, or returns
`ErrPlaylistFull`, or the Go runtime aborts it (an index out of range, a nil
dereference or a division by zero). -/
inductive Appended where
  | ok (p : MediaPlaylist)
  | ErrPlaylistFull
  | panic
deriving DecidableEq, Repr

/-- Model of `MediaPlaylist.AppendSegment`. With `count > 0` the segment written last,
at `(capacity+tail-1) % capacity`, is read for its `SeqId`. -/
def AppendSegment (p : MediaPlaylist) (seg : MediaSegment) : Appended :=
  if p.head = p.tail ∧ p.count > 0 then .ErrPlaylistFull
  else if p.capacity = 0 then .panic
  else if p.count > 0 ∧ (p.Segments.getD ((p.capacity + p.tail - 1) % p.capacity) none).isNone then .panic
  else if p.tail < p.Segments.length then
    .ok { p with Segments := p.Segments.set p.tail (some seg),
                 tail := (p.tail + 1) % p.capacity,
                 count := p.count + 1 }
  else .panic

/-- Model of `MediaPlaylist.Close` (the encoding cache it also appends to is empty
on the playlists built here). -/
def MediaPlaylist.Close (p : MediaPlaylist) : MediaPlaylist := { p with Closed := true }

/-- The dynamic type behind the `m3u8.Playlist` interface value. -/
inductive Playlist where
  | master (p : MasterPlaylist)
  | media (p : MediaPlaylist)
  | nil
deriving DecidableEq, Repr

/-- The list type `m3u8.MASTER`. -/
def MASTER : Nat := 1

/-- The list type `m3u8.MEDIA`. -/
def MEDIA : Nat := 2

/-- The library capabilities the proxy calls and this development does not
reproduce: the manifest codec of `m3u8` and the Unicode case table behind
`strings.ToLower` (consulted for runes outside ASCII only). -/
structure Lib where
  DecodeFrom : List (Fin 256) → Except (List Char) (Playlist × Nat)
  EncodeMaster : MasterPlaylist → List (Fin 256)
  EncodeMedia : MediaPlaylist → List (Fin 256)
  unicodeToLower : Char → Char

/-! ## proxy.go -/

/-- The errors `proxy.go` builds with `fmt.Errorf`. -/
inductive Error where
  | decoding (cause : List Char)
  | notMaster
  | notMedia
  | newPlaylist
  | parseTime (raw : List Char) (cause : NumError)
  | segmentNil
  | segmentTime (uri : List Char)
deriving DecidableEq, Repr

/-- The `*http.Response` the hook receives: `Body` is what the body reader still
has to deliver, `Query` is `resp.Request.URL.Query()`. -/
structure Response where
  Body : List (Fin 256)
  ContentLength : Int
  Header : StrMap
  Query : StrMap
deriving DecidableEq, Repr

/-- How a handler call ends: it returns, leaving the response as `resp` and
handing back `err` (`none` is nil), or it panics. -/
inductive Outcome where
  | returned (resp : Response) (err : Option Error)
  | panicked
deriving DecidableEq, Repr

/-- The query key of the lower bound. -/
def START_KEY : List Char := "start".toList

/-- The query key of the upper bound. -/
def END_KEY : List Char := "end".toList

/-- The keys of the map `playlistContentTypes`. -/
def playlistContentTypes : List (List Char) :=
  ["application/x-mpegurl".toList, "application/vnd.apple.mpegurl".toList]

/-- Model of `unicode.ToLower`. -/
def toLowerRune (lib : Lib) (c : Char) : Char :=
  if c.toNat < 128 then
    if 65 ≤ c.toNat ∧ c.toNat ≤ 90 then Char.ofNat (c.toNat + 32) else c
  else lib.unicodeToLower c

/-- Model of `strings.ToLower`. -/
def ToLower (lib : Lib) (s : List Char) : List Char := s.map (toLowerRune lib)

/-- Model of `isPlaylist` (lines 164-171). -/
def isPlaylist (lib : Lib) (r : Response) : Bool :=
  let contentType := r.Header.Get "Content-Type".toList
  decide (ToLower lib contentType ∈ playlistContentTypes)

/-- Model of `parseInt64(raw, &val)` (lines 173-182): the result is the new `*val`. -/
def parseInt64 (raw : List Char) : Except Error Int :=
  match ParseInt raw with
  | .error err => .error (.parseTime raw err)
  | .ok parsed => .ok parsed

/-- Model of `int64QueryPart(r, key, &val)`: the result is the new `*val`. -/
def int64QueryPart (r : Response) (key : List Char) (val : Int) : Except Error Int :=
  if r.Query.Has key then parseInt64 (r.Query.Get key) else .ok val

/-- The timestamp `shouldIncludeSegment` recovers from a URI (its lines 199-209). -/
def segmentTimestamp (uri : List Char) : Except Error Int :=
  match FindStringSubmatch uri with
  | none => .error (.segmentTime uri)
  | some rawTimestamp => parseInt64 rawTimestamp

/-- Model of `shouldIncludeSegment(segment, start, end, &out)`: the result is the new `*out`. -/
def shouldIncludeSegment (segment : Option MediaSegment) (start «end» : Int) :
    Except Error Bool :=
  match segment with
  | none => .error .segmentNil
  | some seg =>
    match segmentTimestamp seg.URI with
    | .error e => .error e
    | .ok timestamp =>
      if start > 0 ∧ timestamp < start then .ok false
      else if «end» > 0 ∧ timestamp > «end» then .ok false
      else .ok true

/-- How the filter ends: with a playlist, with a returned error, or in a panic. -/
inductive Filtered where
  | ok (p : MediaPlaylist)
  | error (e : Error)
  | panic
deriving DecidableEq, Repr

/-- The `for _, segment := range incomingPlaylist.Segments` loop of
`handleMediaPlaylist`; the error `AppendSegment` returns is dropped, as in the source. -/
def filterLoop (start «end» : Int) : List (Option MediaSegment) → MediaPlaylist → Filtered
  | [], outgoing => .ok outgoing
  | none :: rest, outgoing => filterLoop start «end» rest outgoing
  | some segment :: rest, outgoing =>
    match shouldIncludeSegment (some segment) start «end» with
    | .error e => .error e
    | .ok shouldInclude =>
      if shouldInclude then
        match AppendSegment outgoing segment with
        | .ok outgoing1 => filterLoop start «end» rest outgoing1
        | .ErrPlaylistFull => filterLoop start «end» rest outgoing
        | .panic => .panic
      else filterLoop start «end» rest outgoing

/-- The playlist `handleMediaPlaylist` has built when it reaches `outgoing.Encode()`
(lines 126-154). -/
def outgoingPlaylist (start «end» : Int) (incomingPlaylist : MediaPlaylist) : Filtered :=
  match NewMediaPlaylist incomingPlaylist.Count incomingPlaylist.Count with
  | none => .error .newPlaylist
  | some fresh =>
    match filterLoop start «end» incomingPlaylist.Segments fresh with
    | .error e => .error e
    | .panic => .panic
    | .ok outgoing =>
      let outgoing := if «end» > 0 ∨ incomingPlaylist.Closed then outgoing.Close else outgoing
      .ok { outgoing with SeqNo := incomingPlaylist.SeqNo,
                          DiscontinuitySeq := incomingPlaylist.DiscontinuitySeq }

/-- The window `handleMediaPlaylist` reads from the request (lines 115-123). -/
def window (r : Response) : Except Error (Int × Int) :=
  match int64QueryPart r START_KEY 0 with
  | .error e => .error e
  | .ok start =>
    match int64QueryPart r END_KEY 0 with
    | .error e => .error e
    | .ok «end» => .ok (start, «end»)

/-- Model of `handleMediaPlaylist` (lines 114-162): nothing of the response is written
before the playlist is encoded. -/
def handleMediaPlaylist (lib : Lib) (r : Response) (incomingPlaylist : MediaPlaylist) : Outcome :=
  match window r with
  | .error e => .returned r (some e)
  | .ok (start, «end») =>
    match outgoingPlaylist start «end» incomingPlaylist with
    | .error e => .returned r (some e)
    | .panic => .panicked
    | .ok outgoing =>
      let body := lib.EncodeMedia outgoing
      .returned
        { r with Body := body,
                 ContentLength := (body.length : Int),
                 Header := r.Header.Set "Content-Length".toList (Itoa body.length) }
        none

/-- The `additionalArgs` built by `handleMasterPlaylist` (lines 93-102). -/
def additionalArgs (query : StrMap) : StrMap :=
  let args : StrMap := []
  let args := match query.index START_KEY with
    | some startTime => args.assign START_KEY startTime
    | none => args
  match query.index END_KEY with
  | some endTime => args.assign END_KEY endTime
  | none => args

/-- The playlist `handleMasterPlaylist` encodes: `playlist.Args = additionalArgs.Encode()`
(line 104). -/
def rewriteMaster (query : StrMap) (playlist : MasterPlaylist) : MasterPlaylist :=
  { playlist with Args := (additionalArgs query).Encode }

/-- Model of `handleMasterPlaylist` (lines 92-112); it has no error return but nil. -/
def handleMasterPlaylist (lib : Lib) (r : Response) (playlist : MasterPlaylist) : Outcome :=
  let body := lib.EncodeMaster (rewriteMaster r.Query playlist)
  .returned
    { r with Body := body,
             ContentLength := (body.length : Int),
             Header := r.Header.Set "Content-Length".toList (Itoa body.length) }
    none

/-- Model of `handlePlaylist`: `DecodeFrom` reads the body reader to its end, so whatever
follows sees a drained `Body`. -/
def handlePlaylist (lib : Lib) (resp : Response) : Outcome :=
  let drained := { resp with Body := [] }
  match lib.DecodeFrom resp.Body with
  | .error err => .returned drained (some (.decoding err))
  | .ok (playlist, listType) =>
    if listType = MASTER then
      match playlist with
      | .master masterPlaylist => handleMasterPlaylist lib drained masterPlaylist
      | _ => .returned drained (some .notMaster)
    else if listType = MEDIA then
      match playlist with
      | .media mediaPlaylist => handleMediaPlaylist lib drained mediaPlaylist
      | _ => .returned drained (some .notMedia)
    else .returned drained none

/-- Model of `modifyResponse` (lines 41-59), the hook the reverse proxy calls once per
upstream response. -/
def modifyResponse (lib : Lib) (resp : Response) : Outcome :=
  let query := resp.Query
  if ¬ (query.Has START_KEY ∨ query.Has END_KEY) then .returned resp none
  else if isPlaylist lib resp then handlePlaylist lib resp
  else .returned resp none

/-! ## auxiliary definitions for the statements -/

/-- The state of a playlist made by `NewMediaPlaylist w c` once the segments `xs`
have been appended to it. -/
def ring (c w : Nat) (xs : List MediaSegment) : MediaPlaylist :=
  { Segments := xs.map some ++ List.replicate (c - xs.length) none, SeqNo := 0,
    DiscontinuitySeq := 0, Closed := false, winsize := w, capacity := c, head := 0,
    tail := xs.length % c, count := xs.length }

/-- The code's own test: the segment is one `shouldIncludeSegment` accepts. -/
def included (start «end» : Int) (g : MediaSegment) : Bool :=
  decide (shouldIncludeSegment (some g) start «end» = .ok true)

/-- The window test in the spec's words: the bound is unset (not positive) or
the timestamp is on the right side of it, bounds included. -/
def inWindow (start «end» t : Int) : Prop :=
  (start ≤ 0 ∨ t ≥ start) ∧ («end» ≤ 0 ∨ t ≤ «end»)

instance inWindowDecidable (start «end» t : Int) : Decidable (inWindow start «end» t) := by
  unfold inWindow; infer_instance

/-- The spec's inclusion predicate on a segment: its timestamp is recovered and
lies in the window. -/
def keeps (start «end» : Int) (g : MediaSegment) : Bool :=
  match segmentTimestamp g.URI with
  | .ok t => decide (inWindow start «end» t)
  | .error _ => false

/-- The last lines of `handleMediaPlaylist` before the encoding, applied to the
filled ring. -/
def finished («end» : Int) (M : MediaPlaylist) (ys : List MediaSegment) : MediaPlaylist :=
  { ring M.count M.count ys with
    Closed := decide («end» > 0 ∨ M.Closed = true),
    SeqNo := M.SeqNo, DiscontinuitySeq := M.DiscontinuitySeq }

/-- Every playlist filled through `Append`/`AppendSegment`, as `DecodeFrom` does,
counts the segments it holds: `Count()` is not below the number of present entries. -/
def MediaPlaylist.Counted (p : MediaPlaylist) : Prop := p.present.length ≤ p.Count

instance countedDecidable (p : MediaPlaylist) : Decidable p.Counted := by
  unfold MediaPlaylist.Counted; infer_instance

/-! ## sample inputs -/

/-- A segment with the given URI. -/
def seg (uri : String) : MediaSegment := { URI := uri.toList, Title := [] }

/-- A media playlist as the decoder leaves it: the segments in the first slots of
a buffer of `cap` slots. -/
def decoded (cap : Nat) (xs : List MediaSegment) (closed : Bool) : MediaPlaylist :=
  { Segments := xs.map some ++ List.replicate (cap - xs.length) none, SeqNo := 0,
    DiscontinuitySeq := 0, Closed := closed, winsize := if closed then 0 else 8,
    capacity := cap, head := 0, tail := xs.length % cap, count := xs.length }

/-- A stand-in codec: a body is one byte per written item. -/
def demoLib : Lib where
  DecodeFrom := fun _ => .error []
  EncodeMaster := fun p => p.Args.map (fun c => Fin.ofNat c.toNat)
  EncodeMedia := fun p => p.present.map (fun g => Fin.ofNat g.URI.length)
  unicodeToLower := fun c => c

/-- A manifest response to a request with the given query. -/
def request (query : StrMap) : Response :=
  { Body := [1, 2, 3], ContentLength := 3,
    Header := [("Content-Type".toList, ["application/x-mpegurl".toList]),
               ("Content-Length".toList, ["3".toList])],
    Query := query }

/-- The manifest of scenario A. -/
def scenarioA : MediaPlaylist :=
  decoded 8 [seg "seg-100.ts", seg "seg-200.ts", seg "seg-300.ts"] false

/-- The query `?start=150&end=250`. -/
def queryA : StrMap := [("start".toList, ["150".toList]), ("end".toList, ["250".toList])]

/-- The response `handleMediaPlaylist` leaves for scenario A under `demoLib`. -/
def rewrittenA : Response :=
  { request queryA with
    Body := [10], ContentLength := 1,
    Header := [("Content-Type".toList, ["application/x-mpegurl".toList]),
               ("Content-Length".toList, ["1".toList])] }

/-- The manifest of scenario D: one URI without a numeric token. -/
def scenarioD : MediaPlaylist :=
  decoded 8 [seg "seg-100.ts", seg "live_segment.ts", seg "seg-300.ts"] false

/-- A request without window keys. -/
def queryNone : StrMap := [("token".toList, ["abc".toList])]

/-- A codec whose decoder yields the master playlist with one variant. -/
def masterLib : Lib where
  DecodeFrom := fun _ => .ok (.master { Variants := ["v.m3u8".toList], Args := [] }, MASTER)
  EncodeMaster := fun p => p.Args.map (fun c => Fin.ofNat c.toNat)
  EncodeMedia := fun p => p.present.map (fun g => Fin.ofNat g.URI.length)
  unicodeToLower := fun c => c

/-- A codec whose decoder yields the manifest of scenario A. -/
def mediaLib : Lib where
  DecodeFrom := fun _ => .ok (.media scenarioA, MEDIA)
  EncodeMaster := fun p => p.Args.map (fun c => Fin.ofNat c.toNat)
  EncodeMedia := fun p => p.present.map (fun g => Fin.ofNat g.URI.length)
  unicodeToLower := fun c => c

/-- The query `?start=abc`. -/
def queryAbc : StrMap := [("start".toList, ["abc".toList])]

/-- The response `modifyResponse` leaves for `?start=abc` on a master manifest
under `masterLib`: the body is the encoding of the playlist with `Args = start=abc`. -/
def rewrittenAbc : Response :=
  { request queryAbc with
    Body := "start=abc".toList.map (fun c => Fin.ofNat c.toNat), ContentLength := 9,
    Header := [("Content-Type".toList, ["application/x-mpegurl".toList]),
               ("Content-Length".toList, ["9".toList])] }

/-- The request query restricted to the keys `start` and `end`. -/
def restrict (query : StrMap) : StrMap :=
  query.filter (fun kv => decide (kv.1 = START_KEY ∨ kv.1 = END_KEY))

/-- The query `?start=100`. -/
def queryStart100 : StrMap := [("start".toList, ["100".toList])]

/-- The value of a digit string read in base 10 onto the accumulator `n`. -/
def decimalFrom (n : Nat) (ds : List Char) : Nat :=
  ds.foldl (fun n c => n * 10 + digitVal c) n

/-- The decimal value of a digit string (leading zeros count for nothing). -/
def decimal (ds : List Char) : Nat := decimalFrom 0 ds

/-- A run of one or more decimal digits. -/
def IsDigits (ds : List Char) : Prop := ds ≠ [] ∧ ∀ c ∈ ds, isDigit c = true

/-- The text holds a hyphen immediately followed by one or more decimal digits
immediately followed by `.`. -/
def HasToken (s : List Char) : Prop :=
  ∃ pre ds rest, s = pre ++ '-' :: (ds ++ '.' :: rest) ∧ IsDigits ds

/-- The text holds such a hyphen, digits and `.` before its first line feed. -/
def LineToken (s : List Char) : Prop :=
  ∃ pre ds rest, s = pre ++ '-' :: (ds ++ '.' :: rest) ∧ IsDigits ds ∧ newline ∉ pre

/-- The query `?start=0&end=0`. -/
def queryZero : StrMap := [("start".toList, ["0".toList]), ("end".toList, ["0".toList])]

/-- The response `modifyResponse` leaves for scenario A under `mediaLib` when all
three segments are kept. -/
def rewrittenZero : Response :=
  { request queryZero with
    Body := [10, 10, 10], ContentLength := 3,
    Header := [("Content-Type".toList, ["application/x-mpegurl".toList]),
               ("Content-Length".toList, ["3".toList])] }

/-- The query `?end=-5`. -/
def queryNegativeEnd : StrMap := [("end".toList, ["-5".toList])]

/-- A segment file response (not a manifest) to a request with the given query. -/
def segmentFile (query : StrMap) : Response :=
  { Body := [71, 64, 0], ContentLength := 3,
    Header := [("Content-Type".toList, ["video/mp2t".toList])],
    Query := query }

/-- The window `(start2, end2)` is at least as wide as `(start, end)` under the
`> 0` reading of the bounds: each bound of the second is unset, or set and no
tighter than a set bound of the first. -/
def Wider (start «end» start2 end2 : Int) : Prop :=
  (start2 ≤ 0 ∨ start2 ≤ start) ∧ (end2 ≤ 0 ∨ (0 < «end» ∧ «end» ≤ end2))

/-- The text is a base-10 integer numeral for `v`: an optional sign `+` or `-`
followed by one or more decimal digits, and nothing else. -/
def Denotes (s : List Char) (v : Int) : Prop :=
  ∃ ds, IsDigits ds ∧
    ((s = ds ∧ v = (decimal ds : Int)) ∨ (s = '+' :: ds ∧ v = (decimal ds : Int)) ∨
      (s = '-' :: ds ∧ v = - (decimal ds : Int)))

/-- The value fits a signed 64-bit integer. -/
def InInt64 (v : Int) : Prop := -(2 ^ 63 : Int) ≤ v ∧ v < (2 ^ 63 : Int)

/-- The query `?start=%2B7&end=9223372036854775808`: a signed value and one just
above the int64 range. -/
def queryEdge : StrMap :=
  [("start".toList, ["+7".toList, "x".toList]), ("end".toList, ["9223372036854775808".toList])]

/-- ASCII lower-casing of one rune: `A`-`Z` to `a`-`z`, every other rune itself. -/
def lowerASCII (c : Char) : Char :=
  if 65 ≤ c.toNat ∧ c.toNat ≤ 90 then Char.ofNat (c.toNat + 32) else c

/-- Two header values differ in the case of ASCII letters only. -/
def CaseVariant (s s2 : List Char) : Prop := s.map lowerASCII = s2.map lowerASCII

instance caseVariantDecidable (s s2 : List Char) : Decidable (CaseVariant s s2) := by
  unfold CaseVariant; infer_instance

/-- The header key of the content type. -/
def contentTypeKey : List Char := "Content-Type".toList

/-- A response with the given content type to a request with window keys. -/
def typed (contentType : String) : Response :=
  { Body := [], ContentLength := 0,
    Header := [("Content-Type".toList, [contentType.toList])],
    Query := queryA }

/-! ## lemmas -/

theorem set_map_some_append {α : Type} (xs : List α) (n : Nat) (a : α) :
    (xs.map some ++ List.replicate (n + 1) none).set xs.length (some a)
      = (xs ++ [a]).map some ++ List.replicate n none := by
  induction xs with
  | nil => simp [List.replicate_succ]
  | cons x xs ih => simpa using ih

theorem getD_map_some_append {α : Type} (xs : List α) (n i : Nat) (h : i < xs.length) :
    ((xs.map some ++ List.replicate n none).getD i none).isNone = false := by
  induction xs generalizing i with
  | nil => simp at h
  | cons x xs ih =>
    cases i with
    | zero => simp
    | succ i =>
      have := ih i (by simpa using h)
      simpa using this

theorem AppendSegment_ring_lt (c w : Nat) (xs : List MediaSegment) (seg : MediaSegment)
    (h : xs.length < c) :
    AppendSegment (ring c w xs) seg = .ok (ring c w (xs ++ [seg])) := by
  have hmod : xs.length % c = xs.length := Nat.mod_eq_of_lt h
  have hc : c ≠ 0 := by omega
  have h1 : ¬ (0 = xs.length ∧ xs.length > 0) := by omega
  have h2 : ¬ (xs.length > 0 ∧
      ((xs.map some ++ List.replicate (c - xs.length) none).getD
        ((c + xs.length - 1) % c) none).isNone = true) := by
    rintro ⟨hpos, hn⟩
    have hi : (c + xs.length - 1) % c = xs.length - 1 := by
      have : c + xs.length - 1 = (xs.length - 1) + c := by omega
      rw [this, Nat.add_mod_right]
      exact Nat.mod_eq_of_lt (by omega)
    rw [hi, getD_map_some_append xs _ _ (by omega)] at hn
    exact Bool.noConfusion hn
  have h3 : xs.length < (xs.map some ++ List.replicate (c - xs.length) none).length := by
    simp; omega
  have hrep : c - xs.length = (c - (xs.length + 1)) + 1 := by omega
  unfold AppendSegment
  simp only [ring, hmod, h1, hc, h2, h3, if_false, if_true]
  rw [hrep, set_map_some_append]
  simp [hrep]

theorem AppendSegment_ring_full (c w : Nat) (xs : List MediaSegment) (seg : MediaSegment)
    (h : xs.length = c) (hc : 0 < c) :
    AppendSegment (ring c w xs) seg = .ErrPlaylistFull := by
  simp [AppendSegment, ring, h, hc]

theorem AppendSegment_ring_zero (w : Nat) (seg : MediaSegment) :
    AppendSegment (ring 0 w []) seg = .panic := by
  simp [AppendSegment, ring]

theorem reduceOption_map_some_append {α : Type} (xs : List α) (n : Nat) :
    (xs.map some ++ List.replicate n none).reduceOption = xs := by
  induction xs with
  | nil =>
    induction n with
    | zero => rfl
    | succ n ih => simpa [List.replicate_succ, List.reduceOption_cons_of_none] using ih
  | cons x xs ih => simpa [List.reduceOption_cons_of_some] using ih

theorem ring_present (c w : Nat) (xs : List MediaSegment) : (ring c w xs).present = xs := by
  simp [MediaPlaylist.present, ring, reduceOption_map_some_append]

theorem filterLoop_sound (start «end» : Int) (c w : Nat) :
    ∀ (segs : List (Option MediaSegment)) (xs : List MediaSegment) (q : MediaPlaylist),
      xs.length ≤ c → filterLoop start «end» segs (ring c w xs) = .ok q →
      ∃ ys, q = ring c w (xs ++ ys) ∧ (xs ++ ys).length ≤ c ∧
        ys.Sublist (segs.reduceOption.filter (included start «end»)) ∧
        (∀ g ∈ segs.reduceOption, ∃ b, shouldIncludeSegment (some g) start «end» = .ok b) := by
  intro segs
  induction segs with
  | nil =>
    intro xs q hx h
    simp only [filterLoop, Filtered.ok.injEq] at h
    exact ⟨[], by simp [h], by simpa using hx, by simp, by simp⟩
  | cons o rest ih =>
    intro xs q hx h
    cases o with
    | none =>
      simp only [filterLoop] at h
      simpa [List.reduceOption_cons_of_none] using ih xs q hx h
    | some g =>
      simp only [filterLoop] at h
      cases hinc : shouldIncludeSegment (some g) start «end» with
      | error err => simp [hinc] at h
      | ok b =>
        simp only [hinc] at h
        cases b with
        | true =>
          simp only [if_true] at h
          have hg : included start «end» g = true := by simp [included, hinc]
          rcases Nat.lt_or_ge xs.length c with hlt | hge
          · rw [AppendSegment_ring_lt c w xs g hlt] at h
            obtain ⟨ys, hq, hlen, hsub, hall⟩ := ih (xs ++ [g]) q (by simp; omega) h
            refine ⟨g :: ys, by simpa using hq, by simpa using hlen, ?_, ?_⟩
            · simp only [List.reduceOption_cons_of_some, List.filter_cons, hg, if_true]
              exact hsub.cons₂ g
            · intro g1 hg1
              simp only [List.reduceOption_cons_of_some, List.mem_cons] at hg1
              rcases hg1 with rfl | hg1
              · exact ⟨true, hinc⟩
              · exact hall g1 hg1
          · have hxc : xs.length = c := by omega
            rcases Nat.eq_zero_or_pos c with hc0 | hcpos
            · subst hc0
              have hnil : xs = [] := List.eq_nil_of_length_eq_zero hxc
              subst hnil
              rw [AppendSegment_ring_zero] at h
              simp at h
            · rw [AppendSegment_ring_full c w xs g hxc hcpos] at h
              obtain ⟨ys, hq, hlen, hsub, hall⟩ := ih xs q hx h
              refine ⟨ys, hq, hlen, ?_, ?_⟩
              · simp only [List.reduceOption_cons_of_some, List.filter_cons, hg, if_true]
                exact hsub.cons g
              · intro g1 hg1
                simp only [List.reduceOption_cons_of_some, List.mem_cons] at hg1
                rcases hg1 with rfl | hg1
                · exact ⟨true, hinc⟩
                · exact hall g1 hg1
        | false =>
          simp only [Bool.false_eq_true, if_false] at h
          have hg : included start «end» g = false := by simp [included, hinc]
          obtain ⟨ys, hq, hlen, hsub, hall⟩ := ih xs q hx h
          refine ⟨ys, hq, hlen, ?_, ?_⟩
          · simpa [List.reduceOption_cons_of_some, List.filter_cons, hg] using hsub
          · intro g1 hg1
            simp only [List.reduceOption_cons_of_some, List.mem_cons] at hg1
            rcases hg1 with rfl | hg1
            · exact ⟨false, hinc⟩
            · exact hall g1 hg1

theorem filterLoop_complete (start «end» : Int) (c w : Nat) :
    ∀ (segs : List (Option MediaSegment)) (xs : List MediaSegment),
      xs.length + (segs.reduceOption.filter (included start «end»)).length ≤ c →
      (∀ g ∈ segs.reduceOption, ∃ b, shouldIncludeSegment (some g) start «end» = .ok b) →
      filterLoop start «end» segs (ring c w xs)
        = .ok (ring c w (xs ++ segs.reduceOption.filter (included start «end»))) := by
  intro segs
  induction segs with
  | nil => intro xs _ _; simp [filterLoop]
  | cons o rest ih =>
    intro xs hlen hall
    cases o with
    | none =>
      simp only [filterLoop, List.reduceOption_cons_of_none] at *
      exact ih xs hlen hall
    | some g =>
      simp only [List.reduceOption_cons_of_some] at hlen hall ⊢
      obtain ⟨b, hb⟩ := hall g (by simp)
      have hall1 : ∀ g1 ∈ rest.reduceOption,
          ∃ b, shouldIncludeSegment (some g1) start «end» = .ok b :=
        fun g1 h1 => hall g1 (List.mem_cons_of_mem _ h1)
      simp only [filterLoop, hb]
      cases b with
      | true =>
        have hg : included start «end» g = true := by simp [included, hb]
        simp only [List.filter_cons, hg, if_true, List.length_cons] at hlen ⊢
        rw [AppendSegment_ring_lt c w xs g (by omega)]
        simp only
        rw [ih (xs ++ [g]) (by simp; omega) hall1]
        simp
      | false =>
        have hg : included start «end» g = false := by simp [included, hb]
        simp only [List.filter_cons, hg, Bool.false_eq_true, if_false] at hlen ⊢
        exact ih xs hlen hall1

theorem filterLoop_error (start «end» : Int) (c w : Nat) (hc : 0 < c) :
    ∀ (segs : List (Option MediaSegment)) (xs : List MediaSegment),
      xs.length ≤ c →
      (∃ g ∈ segs.reduceOption, ∃ err, shouldIncludeSegment (some g) start «end» = .error err) →
      ∃ err, filterLoop start «end» segs (ring c w xs) = .error err := by
  intro segs
  induction segs with
  | nil => intro xs _ h; simp at h
  | cons o rest ih =>
    intro xs hx hbad
    cases o with
    | none =>
      simp only [filterLoop, List.reduceOption_cons_of_none] at *
      exact ih xs hx hbad
    | some g =>
      simp only [List.reduceOption_cons_of_some] at hbad
      simp only [filterLoop]
      cases hinc : shouldIncludeSegment (some g) start «end» with
      | error err => exact ⟨err, rfl⟩
      | ok b =>
        have hbad1 : ∃ g1 ∈ rest.reduceOption, ∃ err,
            shouldIncludeSegment (some g1) start «end» = .error err := by
          obtain ⟨g1, hg1, err, herr⟩ := hbad
          simp only [List.mem_cons] at hg1
          rcases hg1 with rfl | hg1
          · rw [hinc] at herr; cases herr
          · exact ⟨g1, hg1, err, herr⟩
        cases b with
        | true =>
          simp only [if_true]
          rcases Nat.lt_or_ge xs.length c with hlt | hge
          · rw [AppendSegment_ring_lt c w xs g hlt]
            exact ih (xs ++ [g]) (by simp; omega) hbad1
          · rw [AppendSegment_ring_full c w xs g (by omega) hc]
            exact ih xs hx hbad1
        | false =>
          simp only [Bool.false_eq_true, if_false]
          exact ih xs hx hbad1

theorem NewMediaPlaylist_eq (c : Nat) : NewMediaPlaylist c c = some (ring c c []) := by
  simp [NewMediaPlaylist, ring]

theorem shouldIncludeSegment_ok_iff (g : MediaSegment) (start «end» : Int) (b : Bool) :
    shouldIncludeSegment (some g) start «end» = .ok b ↔
      ∃ t, segmentTimestamp g.URI = .ok t ∧ b = decide (inWindow start «end» t) := by
  unfold shouldIncludeSegment inWindow
  cases hts : segmentTimestamp g.URI with
  | error err => simp [hts]
  | ok t =>
    simp only [hts, Except.ok.injEq, exists_eq_left']
    by_cases h1 : start > 0 ∧ t < start
    · have : ¬ ((start ≤ 0 ∨ t ≥ start) ∧ («end» ≤ 0 ∨ t ≤ «end»)) := by omega
      rw [if_pos h1]
      simp only [this, decide_False, Except.ok.injEq]
      exact eq_comm
    · by_cases h2 : «end» > 0 ∧ t > «end»
      · have : ¬ ((start ≤ 0 ∨ t ≥ start) ∧ («end» ≤ 0 ∨ t ≤ «end»)) := by omega
        rw [if_neg h1, if_pos h2]
        simp only [this, decide_False, Except.ok.injEq]
        exact eq_comm
      · have : (start ≤ 0 ∨ t ≥ start) ∧ («end» ≤ 0 ∨ t ≤ «end») := by omega
        rw [if_neg h1, if_neg h2]
        simp only [this, decide_True, Except.ok.injEq]
        exact eq_comm

theorem shouldIncludeSegment_error_iff (g : MediaSegment) (start «end» : Int) (err : Error) :
    shouldIncludeSegment (some g) start «end» = .error err ↔
      segmentTimestamp g.URI = .error err := by
  unfold shouldIncludeSegment
  cases hts : segmentTimestamp g.URI with
  | error err1 => simp [hts]
  | ok t =>
    simp only [hts]
    split_ifs <;> simp

theorem included_eq_keeps_of_ok (start «end» : Int) (g : MediaSegment) (b : Bool)
    (h : shouldIncludeSegment (some g) start «end» = .ok b) :
    included start «end» g = keeps start «end» g := by
  obtain ⟨t, ht, hb⟩ := (shouldIncludeSegment_ok_iff g start «end» b).1 h
  subst hb
  simp [included, keeps, ht, h]

theorem filter_included_eq_keeps (start «end» : Int) (l : List MediaSegment)
    (h : ∀ g ∈ l, ∃ b, shouldIncludeSegment (some g) start «end» = .ok b) :
    l.filter (included start «end») = l.filter (keeps start «end») := by
  apply List.filter_congr
  intro g hg
  obtain ⟨b, hb⟩ := h g hg
  exact included_eq_keeps_of_ok start «end» g b hb

theorem outgoingPlaylist_ok (start «end» : Int) (M out : MediaPlaylist)
    (h : outgoingPlaylist start «end» M = .ok out) :
    ∃ ys, out = finished «end» M ys ∧ ys.length ≤ M.count ∧
      ys.Sublist (M.present.filter (included start «end»)) ∧
      (∀ g ∈ M.present, ∃ b, shouldIncludeSegment (some g) start «end» = .ok b) := by
  unfold outgoingPlaylist at h
  rw [MediaPlaylist.Count, NewMediaPlaylist_eq] at h
  simp only at h
  cases hloop : filterLoop start «end» M.Segments (ring M.count M.count []) with
  | error err => simp [hloop] at h
  | panic => simp [hloop] at h
  | ok q =>
    simp only [hloop, Filtered.ok.injEq] at h
    obtain ⟨ys, hq, hlen, hsub, hall⟩ :=
      filterLoop_sound start «end» M.count M.count M.Segments [] q (by simp) hloop
    refine ⟨ys, ?_, by simpa using hlen, hsub, hall⟩
    subst hq
    rw [← h]
    by_cases hc : «end» > 0 ∨ M.Closed = true
    · simp [finished, hc, MediaPlaylist.Close, ring]
    · simp [finished, hc, ring]

theorem finished_present («end» : Int) (M : MediaPlaylist) (ys : List MediaSegment) :
    (finished «end» M ys).present = ys := by
  simp [finished, MediaPlaylist.present, ring, reduceOption_map_some_append]

theorem handleMediaPlaylist_ok (lib : Lib) (r r1 : Response) (M : MediaPlaylist)
    (h : handleMediaPlaylist lib r M = .returned r1 none) :
    ∃ start «end» out, window r = .ok (start, «end») ∧
      outgoingPlaylist start «end» M = .ok out ∧
      r1 = { r with Body := lib.EncodeMedia out,
                    ContentLength := ((lib.EncodeMedia out).length : Int),
                    Header := r.Header.Set "Content-Length".toList
                      (Itoa (lib.EncodeMedia out).length) } := by
  unfold handleMediaPlaylist at h
  cases hw : window r with
  | error err => simp [hw] at h
  | ok se =>
    obtain ⟨start, «end»⟩ := se
    simp only [hw] at h
    cases ho : outgoingPlaylist start «end» M with
    | error err => simp [ho] at h
    | panic => simp [ho] at h
    | ok out =>
      simp only [ho, Outcome.returned.injEq, and_true] at h
      exact ⟨start, «end», out, rfl, ho, h.symm⟩

theorem StrMap.index_assign (m : StrMap) (key : List Char) (vs : List (List Char)) :
    (m.assign key vs).index key = some vs := by
  induction m with
  | nil => simp [StrMap.assign, StrMap.index]
  | cons kv rest ih =>
    obtain ⟨k, ws⟩ := kv
    by_cases hk : k = key
    · simp [StrMap.assign, StrMap.index, hk]
    · simp [StrMap.assign, StrMap.index, hk, ih]

theorem StrMap.Get_Set (m : StrMap) (key value : List Char) :
    (m.Set key value).Get key = value := by
  simp [StrMap.Set, StrMap.Get, StrMap.index_assign]

theorem int64QueryPart_error (r : Response) (key : List Char) (val : Int) (cause : NumError)
    (hk : r.Query.Has key = true) (hp : ParseInt (r.Query.Get key) = .error cause) :
    int64QueryPart r key val = .error (.parseTime (r.Query.Get key) cause) := by
  simp [int64QueryPart, hk, parseInt64, hp]

theorem window_error (r : Response)
    (hbad : (r.Query.Has START_KEY = true ∧ ∃ cause, ParseInt (r.Query.Get START_KEY) = .error cause) ∨
      (r.Query.Has END_KEY = true ∧ ∃ cause, ParseInt (r.Query.Get END_KEY) = .error cause)) :
    ∃ raw cause, window r = .error (.parseTime raw cause) := by
  unfold window
  cases hs : int64QueryPart r START_KEY 0 with
  | error e =>
    simp only [int64QueryPart, parseInt64] at hs
    split at hs
    · split at hs
      · cases hs; exact ⟨_, _, rfl⟩
      · cases hs
    · cases hs
  | ok start =>
    rcases hbad with ⟨hk, cause, hp⟩ | ⟨hk, cause, hp⟩
    · rw [int64QueryPart_error r START_KEY 0 cause hk hp] at hs
      cases hs
    · rw [int64QueryPart_error r END_KEY 0 cause hk hp]
      exact ⟨_, _, rfl⟩

theorem additionalArgs_Encode (query : StrMap) :
    (additionalArgs query).Encode
      = List.intercalate ['&'] (encodeKey query END_KEY ++ encodeKey query START_KEY) := by
  unfold additionalArgs
  cases hs : query.index START_KEY with
  | none =>
    cases he : query.index END_KEY with
    | none => simp [StrMap.Encode, encodeKey, hs, he, sortKeys]
    | some ve =>
      simp only [StrMap.assign, StrMap.Encode, encodeKey, hs, he, List.map, List.dedup_cons_of_not_mem,
        List.not_mem_nil, not_false_eq_true, List.dedup_nil, sortKeys, List.foldr, insertKey,
        List.flatMap_cons, List.flatMap_nil, StrMap.index, if_true, Option.getD, List.append_nil]
  | some vs =>
    cases he : query.index END_KEY with
    | none =>
      simp only [StrMap.assign, StrMap.Encode, encodeKey, hs, he, List.map, List.dedup_cons_of_not_mem,
        List.not_mem_nil, not_false_eq_true, List.dedup_nil, sortKeys, List.foldr, insertKey,
        List.flatMap_cons, List.flatMap_nil, StrMap.index, if_true, Option.getD, List.append_nil,
        List.nil_append]
    | some ve =>
      have hne : START_KEY ≠ END_KEY := by decide
      have hne2 : END_KEY ≠ START_KEY := by decide
      have hlt : strLess END_KEY START_KEY = true := by decide
      have hd : ([START_KEY, END_KEY] : List (List Char)).dedup = [START_KEY, END_KEY] := by decide
      simp only [StrMap.assign, hne, if_false, StrMap.Encode, List.map, hd, sortKeys, List.foldr,
        insertKey, hlt, if_true, List.flatMap_cons, List.flatMap_nil, encodeKey, StrMap.index,
        hne2, hs, he, Option.getD, List.append_nil]

theorem sortKeys_dedup_window (l : List (List Char))
    (hl : ∀ k ∈ l, k = START_KEY ∨ k = END_KEY) :
    sortKeys l.dedup
      = (if END_KEY ∈ l then [END_KEY] else []) ++ (if START_KEY ∈ l then [START_KEY] else []) := by
  have hne : START_KEY ≠ END_KEY := by decide
  have hne2 : END_KEY ≠ START_KEY := by decide
  induction l with
  | nil => simp [sortKeys]
  | cons a l ih =>
    have ih1 := ih (fun k hk => hl k (List.mem_cons_of_mem _ hk))
    by_cases ha : a ∈ l
    · rw [List.dedup_cons_of_mem ha, ih1]
      rcases hl a (List.mem_cons_self _ _) with rfl | rfl
      · simp [ha, hne2]
      · simp [ha, hne]
    · rw [List.dedup_cons_of_not_mem ha]
      have hs : sortKeys (a :: l.dedup) = insertKey a (sortKeys l.dedup) := rfl
      rw [hs, ih1]
      rcases hl a (List.mem_cons_self _ _) with rfl | rfl
      · have hlt : strLess END_KEY START_KEY = true := by decide
        by_cases he : END_KEY ∈ l
        · simp [ha, he, hne2, insertKey, hlt]
        · simp [ha, he, hne2, insertKey]
      · have hlt : strLess START_KEY END_KEY = false := by decide
        by_cases hs1 : START_KEY ∈ l
        · simp [ha, hs1, hne, insertKey, hlt]
        · simp [ha, hs1, hne, insertKey]

theorem restrict_index (query : StrMap) (k : List Char) (hk : k = START_KEY ∨ k = END_KEY) :
    (restrict query).index k = query.index k := by
  induction query with
  | nil => rfl
  | cons kv rest ih =>
    obtain ⟨k1, vs⟩ := kv
    by_cases h1 : k1 = START_KEY ∨ k1 = END_KEY
    · have : restrict ((k1, vs) :: rest) = (k1, vs) :: restrict rest := by
        simp [restrict, h1]
      rw [this]
      simp only [StrMap.index]
      rw [ih]
    · have : restrict ((k1, vs) :: rest) = restrict rest := by
        simp [restrict, h1]
      rw [this, ih]
      have hk1 : k1 ≠ k := by
        rintro rfl; exact h1 hk
      simp [StrMap.index, hk1]

theorem mem_keys_iff_index (m : StrMap) (k : List Char) :
    k ∈ m.map Prod.fst ↔ (m.index k).isSome = true := by
  induction m with
  | nil => simp [StrMap.index]
  | cons kv rest ih =>
    obtain ⟨k1, vs⟩ := kv
    by_cases h1 : k1 = k
    · simp [StrMap.index, h1]
    · have h2 : ¬ k = k1 := fun h => h1 h.symm
      simp [StrMap.index, h1, h2, ih]

theorem restrict_keys (query : StrMap) :
    ∀ k ∈ (restrict query).map Prod.fst, k = START_KEY ∨ k = END_KEY := by
  intro k hk
  simp only [restrict, List.mem_map, List.mem_filter, decide_eq_true_eq] at hk
  obtain ⟨kv, ⟨_, h⟩, rfl⟩ := hk
  exact h

theorem encodeKey_of_index_eq (m1 m2 : StrMap) (k : List Char) (h : m1.index k = m2.index k) :
    encodeKey m1 k = encodeKey m2 k := by
  simp [encodeKey, h]

theorem encodeKey_of_index_none (m : StrMap) (k : List Char) (h : (m.index k).isSome = false) :
    encodeKey m k = [] := by
  cases hi : m.index k with
  | none => simp [encodeKey, hi]
  | some vs => simp [hi] at h

theorem restrict_Encode (query : StrMap) :
    (restrict query).Encode
      = List.intercalate ['&'] (encodeKey query END_KEY ++ encodeKey query START_KEY) := by
  unfold StrMap.Encode
  rw [sortKeys_dedup_window _ (restrict_keys query)]
  have hE := encodeKey_of_index_eq (restrict query) query END_KEY
    (restrict_index query END_KEY (Or.inr rfl))
  have hS := encodeKey_of_index_eq (restrict query) query START_KEY
    (restrict_index query START_KEY (Or.inl rfl))
  have hmE := mem_keys_iff_index (restrict query) END_KEY
  have hmS := mem_keys_iff_index (restrict query) START_KEY
  rw [restrict_index query END_KEY (Or.inr rfl)] at hmE
  rw [restrict_index query START_KEY (Or.inl rfl)] at hmS
  by_cases he : (query.index END_KEY).isSome = true
  · by_cases hs : (query.index START_KEY).isSome = true
    · simp [hmE.2 he, hmS.2 hs, hE, hS]
    · have hs0 := encodeKey_of_index_none query START_KEY (by simpa using hs)
      have : START_KEY ∉ (restrict query).map Prod.fst := fun h => hs (hmS.1 h)
      simp [hmE.2 he, this, hE, hs0]
  · have he0 := encodeKey_of_index_none query END_KEY (by simpa using he)
    have hne : END_KEY ∉ (restrict query).map Prod.fst := fun h => he (hmE.1 h)
    by_cases hs : (query.index START_KEY).isSome = true
    · simp [hne, hmS.2 hs, hS, he0]
    · have hs0 := encodeKey_of_index_none query START_KEY (by simpa using hs)
      have : START_KEY ∉ (restrict query).map Prod.fst := fun h => hs (hmS.1 h)
      simp [hne, this, he0, hs0]

theorem isDigit_ne_dot (c : Char) (h : isDigit c = true) : c ≠ '.' := by
  rintro rfl; revert h; decide

theorem isDigit_ne_hyphen (c : Char) (h : isDigit c = true) : c ≠ '-' := by
  rintro rfl; revert h; decide

theorem isDigit_ne_newline (c : Char) (h : isDigit c = true) : c ≠ newline := by
  rintro rfl; revert h; decide

theorem matchDigitsDot_cons (c : Char) (cs : List Char) :
    matchDigitsDot (c :: cs) =
      if isDigit c then
        match matchDigitsDot cs with
        | some ds => some (c :: ds)
        | none => if cs.head? = some '.' then some [c] else none
      else none := rfl

theorem matchDigitsDot_dot (rest : List Char) : matchDigitsDot ('.' :: rest) = none := by
  have : isDigit '.' = false := by decide
  rw [matchDigitsDot_cons]
  simp [this]

theorem matchDigitsDot_of_digits (ds rest : List Char) (h : IsDigits ds) :
    matchDigitsDot (ds ++ '.' :: rest) = some ds := by
  obtain ⟨hne, hall⟩ := h
  induction ds with
  | nil => exact absurd rfl hne
  | cons c ds ih =>
    have hc : isDigit c = true := hall c (List.mem_cons_self _ _)
    cases ds with
    | nil =>
      simp only [List.cons_append, List.nil_append]
      rw [matchDigitsDot_cons, matchDigitsDot_dot]
      simp [hc]
    | cons c2 ds2 =>
      have := ih (by simp) (fun x hx => hall x (List.mem_cons_of_mem _ hx))
      simp only [List.cons_append] at this ⊢
      rw [matchDigitsDot_cons, this]
      simp [hc]

theorem matchDigitsDot_some (s ds : List Char) (h : matchDigitsDot s = some ds) :
    IsDigits ds ∧ ∃ rest, s = ds ++ '.' :: rest := by
  induction s generalizing ds with
  | nil => simp [matchDigitsDot] at h
  | cons c cs ih =>
    rw [matchDigitsDot_cons] at h
    by_cases hc : isDigit c = true
    · simp only [hc, if_true] at h
      cases hm : matchDigitsDot cs with
      | some ds1 =>
        simp only [hm, Option.some.injEq] at h
        obtain ⟨⟨hne, hall⟩, rest, hrest⟩ := ih ds1 hm
        subst h
        refine ⟨⟨by simp, ?_⟩, rest, by simp [hrest]⟩
        intro x hx
        rcases List.mem_cons.1 hx with rfl | hx
        · exact hc
        · exact hall x hx
      | none =>
        simp only [hm] at h
        cases cs with
        | nil => simp at h
        | cons d cs1 =>
          by_cases hd : d = '.'
          · simp only [hd, List.head?_cons, if_true, Option.some.injEq] at h
            subst h
            exact ⟨⟨by simp, by simpa using hc⟩, cs1, by simp [hd]⟩
          · simp [hd] at h
    · simp [hc] at h

theorem matchHyphen_some_iff (s ds : List Char) :
    matchHyphen s = some ds ↔ IsDigits ds ∧ ∃ rest, s = '-' :: (ds ++ '.' :: rest) := by
  cases s with
  | nil => simp [matchHyphen]
  | cons c cs =>
    by_cases hc : c = '-'
    · subst hc
      simp only [matchHyphen, if_true]
      constructor
      · intro h
        obtain ⟨hd, rest, hr⟩ := matchDigitsDot_some cs ds h
        exact ⟨hd, rest, by rw [hr]⟩
      · rintro ⟨hd, rest, hr⟩
        simp only [List.cons.injEq, true_and] at hr
        rw [hr]
        exact matchDigitsDot_of_digits ds rest hd
    · simp only [matchHyphen, hc, if_false]
      constructor
      · intro h; cases h
      · rintro ⟨_, rest, hr⟩
        simp only [List.cons.injEq] at hr
        exact absurd hr.1 hc

theorem lineToken_cons (c : Char) (cs : List Char) :
    LineToken (c :: cs) ↔
      (∃ ds, matchHyphen (c :: cs) = some ds) ∨ (c ≠ newline ∧ LineToken cs) := by
  constructor
  · rintro ⟨pre, ds, rest, hs, hd, hn⟩
    cases pre with
    | nil =>
      left
      exact ⟨ds, (matchHyphen_some_iff _ _).2 ⟨hd, rest, by simpa using hs⟩⟩
    | cons a pre1 =>
      right
      simp only [List.cons_append, List.cons.injEq] at hs
      obtain ⟨rfl, hcs⟩ := hs
      refine ⟨?_, pre1, ds, rest, hcs, hd, ?_⟩
      · intro h; exact hn (by simp [h])
      · intro h; exact hn (List.mem_cons_of_mem _ h)
  · rintro (⟨ds, h⟩ | ⟨hc, pre, ds, rest, hs, hd, hn⟩)
    · obtain ⟨hd, rest, hr⟩ := (matchHyphen_some_iff _ _).1 h
      exact ⟨[], ds, rest, by simpa using hr, hd, by simp⟩
    · refine ⟨c :: pre, ds, rest, by simp [hs], hd, ?_⟩
      intro h
      rcases List.mem_cons.1 h with h | h
      · exact hc h.symm
      · exact hn h

theorem matchHyphen_newline (cs : List Char) : matchHyphen (newline :: cs) = none := by
  have : newline ≠ '-' := by decide
  simp [matchHyphen, this]

theorem matchHere_none_iff (s : List Char) : matchHere s = none ↔ ¬ LineToken s := by
  induction s with
  | nil =>
    simp only [matchHere, true_iff]
    rintro ⟨pre, ds, rest, hs, _⟩
    simp at hs
  | cons c cs ih =>
    rw [lineToken_cons]
    unfold matchHere
    by_cases hc : c = newline
    · subst hc
      simp [matchHyphen_newline]
    · simp only [ne_eq, hc, not_false_eq_true, if_true, true_and]
      cases hm : matchHere cs with
      | some ds =>
        have : LineToken cs := by
          by_contra hcon
          rw [ih.2 hcon] at hm
          cases hm
        simp [this]
      | none =>
        have hnl : ¬ LineToken cs := ih.1 hm
        simp only [hnl, or_false]
        cases hh : matchHyphen (c :: cs) with
        | none => simp
        | some ds => simp

theorem lineToken_append_digits_dot (ds rest : List Char) (hd : IsDigits ds)
    (h : LineToken rest) : LineToken (ds ++ '.' :: rest) := by
  obtain ⟨pre, ds1, rest1, hs, hd1, hn⟩ := h
  refine ⟨ds ++ '.' :: pre, ds1, rest1, by simp [hs], hd1, ?_⟩
  intro hmem
  rcases List.mem_append.1 hmem with hmem | hmem
  · exact isDigit_ne_newline _ (hd.2 _ hmem) rfl
  · rcases List.mem_cons.1 hmem with hmem | hmem
    · revert hmem; decide
    · exact hn hmem

theorem matchHere_some (s ds : List Char) (h : matchHere s = some ds) :
    ∃ pre rest, s = pre ++ '-' :: (ds ++ '.' :: rest) ∧ IsDigits ds ∧ newline ∉ pre ∧
      ¬ LineToken rest := by
  induction s with
  | nil => simp [matchHere] at h
  | cons c cs ih =>
    unfold matchHere at h
    by_cases hc : c = newline
    · subst hc
      simp [matchHyphen_newline] at h
    · simp only [ne_eq, hc, not_false_eq_true, if_true] at h
      cases hm : matchHere cs with
      | some ds1 =>
        simp only [hm, Option.some.injEq] at h
        subst h
        obtain ⟨pre, rest, hs, hd, hn, hl⟩ := ih hm
        refine ⟨c :: pre, rest, by simp [hs], hd, ?_, hl⟩
        intro hmem
        rcases List.mem_cons.1 hmem with hmem | hmem
        · exact hc hmem.symm
        · exact hn hmem
      | none =>
        simp only [hm] at h
        obtain ⟨hd, rest, hr⟩ := (matchHyphen_some_iff _ _).1 h
        refine ⟨[], rest, by simpa using hr, hd, by simp, ?_⟩
        intro hl
        have hcs : cs = ds ++ '.' :: rest := by
          simp only [List.cons.injEq] at hr
          exact hr.2
        have := lineToken_append_digits_dot ds rest hd hl
        rw [← hcs] at this
        exact (matchHere_none_iff cs).1 hm this

theorem matchHere_of_token (pre ds rest : List Char) (hd : IsDigits ds)
    (hn : newline ∉ pre) (hl : ¬ LineToken rest) :
    matchHere (pre ++ '-' :: (ds ++ '.' :: rest)) = some ds := by
  induction pre with
  | nil =>
    have hne : '-' ≠ newline := by decide
    have hnone : matchHere (ds ++ '.' :: rest) = none := by
      rw [matchHere_none_iff]
      rintro ⟨pre1, ds1, rest1, hs, hd1, hn1⟩
      -- the hyphen of the token lies beyond the digits and the dot
      have key : ∀ (ds pre1 : List Char), (∀ c ∈ ds, isDigit c = true) →
          ds ++ '.' :: rest = pre1 ++ '-' :: (ds1 ++ '.' :: rest1) → newline ∉ pre1 →
          LineToken rest := by
        intro ds
        induction ds with
        | nil =>
          intro pre1 _ hs hn1
          cases pre1 with
          | nil => simp at hs
          | cons a p =>
            simp only [List.nil_append, List.cons_append, List.cons.injEq] at hs
            exact ⟨p, ds1, rest1, hs.2, hd1, fun hm => hn1 (List.mem_cons_of_mem _ hm)⟩
        | cons d ds ih =>
          intro pre1 hall hs hn1
          cases pre1 with
          | nil =>
            simp only [List.cons_append, List.nil_append, List.cons.injEq] at hs
            exact absurd hs.1 (isDigit_ne_hyphen d (hall d (List.mem_cons_self _ _)))
          | cons a p =>
            simp only [List.cons_append, List.cons.injEq] at hs
            exact ih p (fun c hc => hall c (List.mem_cons_of_mem _ hc)) hs.2
              (fun hm => hn1 (List.mem_cons_of_mem _ hm))
      exact hl (key ds pre1 hd.2 hs hn1)
    simp only [List.nil_append]
    unfold matchHere
    simp only [ne_eq, hne, not_false_eq_true, if_true, hnone]
    exact (matchHyphen_some_iff _ _).2 ⟨hd, rest, rfl⟩
  | cons a pre ih =>
    have ha : a ≠ newline := fun h => hn (by simp [h])
    have := ih (fun hm => hn (List.mem_cons_of_mem _ hm))
    simp only [List.cons_append]
    unfold matchHere
    simp only [ne_eq, ha, not_false_eq_true, if_true, this]

theorem hasToken_cons (c : Char) (cs : List Char) :
    HasToken (c :: cs) ↔ LineToken (c :: cs) ∨ HasToken cs := by
  constructor
  · rintro ⟨pre, ds, rest, hs, hd⟩
    cases pre with
    | nil => exact Or.inl ⟨[], ds, rest, hs, hd, by simp⟩
    | cons a p =>
      simp only [List.cons_append, List.cons.injEq] at hs
      exact Or.inr ⟨p, ds, rest, hs.2, hd⟩
  · rintro (⟨pre, ds, rest, hs, hd, _⟩ | ⟨pre, ds, rest, hs, hd⟩)
    · exact ⟨pre, ds, rest, hs, hd⟩
    · exact ⟨c :: pre, ds, rest, by simp [hs], hd⟩

theorem not_hasToken_nil : ¬ HasToken [] := by
  rintro ⟨pre, ds, rest, hs, _⟩
  simp at hs

theorem FindStringSubmatch_none_iff (s : List Char) :
    FindStringSubmatch s = none ↔ ¬ HasToken s := by
  induction s with
  | nil => simp [FindStringSubmatch, not_hasToken_nil]
  | cons c cs ih =>
    rw [hasToken_cons]
    unfold FindStringSubmatch
    cases hm : matchHere (c :: cs) with
    | some ds =>
      have : LineToken (c :: cs) := by
        by_contra hcon
        rw [(matchHere_none_iff _).2 hcon] at hm
        cases hm
      simp [this]
    | none =>
      have : ¬ LineToken (c :: cs) := (matchHere_none_iff _).1 hm
      simp [this, ih]

theorem FindStringSubmatch_some (s ds : List Char) (h : FindStringSubmatch s = some ds) :
    ∃ pre rest, s = pre ++ '-' :: (ds ++ '.' :: rest) ∧ IsDigits ds ∧ ¬ LineToken rest := by
  induction s with
  | nil => simp [FindStringSubmatch] at h
  | cons c cs ih =>
    unfold FindStringSubmatch at h
    cases hm : matchHere (c :: cs) with
    | some ds1 =>
      simp only [hm, Option.some.injEq] at h
      subst h
      obtain ⟨pre, rest, hs, hd, _, hl⟩ := matchHere_some _ _ hm
      exact ⟨pre, rest, hs, hd, hl⟩
    | none =>
      simp only [hm] at h
      obtain ⟨pre, rest, hs, hd, hl⟩ := ih h
      exact ⟨c :: pre, rest, by simp [hs], hd, hl⟩

theorem lineToken_iff_hasToken (s : List Char) (hn : newline ∉ s) :
    LineToken s ↔ HasToken s := by
  constructor
  · rintro ⟨pre, ds, rest, hs, hd, _⟩
    exact ⟨pre, ds, rest, hs, hd⟩
  · rintro ⟨pre, ds, rest, hs, hd⟩
    refine ⟨pre, ds, rest, hs, hd, ?_⟩
    intro hm
    exact hn (by rw [hs]; exact List.mem_append_left _ hm)

theorem FindStringSubmatch_eq_matchHere (s : List Char) (hn : newline ∉ s) :
    FindStringSubmatch s = matchHere s := by
  cases s with
  | nil => rfl
  | cons c cs =>
    unfold FindStringSubmatch
    cases hm : matchHere (c :: cs) with
    | some ds => rfl
    | none =>
      simp only
      rw [FindStringSubmatch_none_iff]
      intro ht
      have h1 : HasToken (c :: cs) := (hasToken_cons c cs).2 (Or.inr ht)
      exact (matchHere_none_iff _).1 hm ((lineToken_iff_hasToken _ hn).2 h1)

theorem FindStringSubmatch_last_token (pre ds rest : List Char) (hd : IsDigits ds)
    (hn : newline ∉ pre ++ '-' :: (ds ++ '.' :: rest)) (hl : ¬ HasToken rest) :
    FindStringSubmatch (pre ++ '-' :: (ds ++ '.' :: rest)) = some ds := by
  rw [FindStringSubmatch_eq_matchHere _ hn]
  apply matchHere_of_token pre ds rest hd
  · intro hm; exact hn (List.mem_append_left _ hm)
  · intro h
    obtain ⟨p, d, x, hs, hd1, _⟩ := h
    exact hl ⟨p, d, x, hs, hd1⟩

theorem decimalFrom_ge (ds : List Char) (n : Nat) : n ≤ decimalFrom n ds := by
  induction ds generalizing n with
  | nil => simp [decimalFrom]
  | cons c cs ih =>
    have := ih (n * 10 + digitVal c)
    simp only [decimalFrom, List.foldl_cons] at this ⊢
    omega

theorem parseUintLoop_digits (ds : List Char) (n : Nat)
    (hall : ∀ c ∈ ds, isDigit c = true) (hn : n < 2 ^ 64) :
    parseUintLoop ds n =
      if decimalFrom n ds < 2 ^ 64 then (decimalFrom n ds, none)
      else (maxUint64, some .ErrRange) := by
  induction ds generalizing n with
  | nil =>
    simp only [parseUintLoop, decimalFrom, List.foldl_nil]
    rw [if_pos hn]
  | cons c cs ih =>
    have hc : isDigit c = true := hall c (List.mem_cons_self _ _)
    have hd : digitVal c ≤ 9 := by
      simp only [isDigit, Bool.and_eq_true, decide_eq_true_eq] at hc
      simp only [digitVal]
      omega
    have hge := decimalFrom_ge cs (n * 10 + digitVal c)
    have hstep : decimalFrom n (c :: cs) = decimalFrom (n * 10 + digitVal c) cs := rfl
    rw [hstep]
    unfold parseUintLoop
    simp only [hc, if_true]
    by_cases hcut : n ≥ maxUint64 / 10 + 1
    · have h1 : ¬ decimalFrom (n * 10 + digitVal c) cs < 2 ^ 64 := by
        simp only [maxUint64] at hcut
        omega
      simp only [hcut, if_true, h1, if_false]
    · simp only [hcut, if_false]
      have hlt : n * 10 < 2 ^ 64 := by
        simp only [maxUint64] at hcut
        omega
      have hm : n * 10 % 2 ^ 64 = n * 10 := Nat.mod_eq_of_lt hlt
      by_cases hov : n * 10 + digitVal c < 2 ^ 64
      · have hm2 : (n * 10 + digitVal c) % 2 ^ 64 = n * 10 + digitVal c := Nat.mod_eq_of_lt hov
        have h2 : ¬ (n * 10 + digitVal c < n * 10 ∨ n * 10 + digitVal c > maxUint64) := by
          simp only [maxUint64]
          omega
        simp only [hm, hm2, h2, if_false]
        exact ih (n * 10 + digitVal c) (fun x hx => hall x (List.mem_cons_of_mem _ hx)) hov
      · have hm2 : (n * 10 + digitVal c) % 2 ^ 64 = n * 10 + digitVal c - 2 ^ 64 := by
          rw [Nat.mod_eq_sub_mod (by omega)]
          exact Nat.mod_eq_of_lt (by omega)
        have h2 : (n * 10 + digitVal c - 2 ^ 64 < n * 10 ∨
            n * 10 + digitVal c - 2 ^ 64 > maxUint64) := by
          left; omega
        have h1 : ¬ decimalFrom (n * 10 + digitVal c) cs < 2 ^ 64 := by omega
        simp only [hm, hm2, h2, if_true, h1, if_false]

theorem ParseInt_digits (ds : List Char) (hd : IsDigits ds) :
    ParseInt ds = if decimal ds < 2 ^ 63 then .ok (decimal ds : Int) else .error .ErrRange := by
  obtain ⟨hne, hall⟩ := hd
  cases ds with
  | nil => exact absurd rfl hne
  | cons c cs =>
    have hc : isDigit c = true := hall c (List.mem_cons_self _ _)
    have h1 : c ≠ '-' := isDigit_ne_hyphen c hc
    have h2 : c ≠ '+' := by rintro rfl; revert hc; decide
    have hloop := parseUintLoop_digits (c :: cs) 0 hall (by norm_num)
    unfold ParseInt
    simp only [h1, h2, or_self, if_false, decide_False, ParseUint, List.cons_ne_nil, hloop]
    by_cases hlt : decimalFrom 0 (c :: cs) < 2 ^ 64
    · rw [if_pos hlt]
      simp only [decimal]
      by_cases h63 : decimalFrom 0 (c :: cs) < 2 ^ 63
      · have h3 : ¬ (¬ False ∧ decimalFrom 0 (c :: cs) ≥ 2 ^ 63) := by omega
        have h4 : ¬ (False ∧ decimalFrom 0 (c :: cs) > 2 ^ 63) := by simp
        rw [if_pos h63]
        simp only [Bool.false_eq_true, h3, h4, if_false]
      · have h3 : (¬ False ∧ decimalFrom 0 (c :: cs) ≥ 2 ^ 63) := ⟨not_false, by omega⟩
        rw [if_neg h63]
        simp only [Bool.false_eq_true, h3]
        simp
    · have h63 : ¬ decimalFrom 0 (c :: cs) < 2 ^ 63 := by omega
      have h3 : (¬ False ∧ maxUint64 ≥ 2 ^ 63) := ⟨not_false, by decide⟩
      rw [if_neg hlt]
      simp only [decimal]
      rw [if_neg h63]
      simp only [Bool.false_eq_true, h3]
      simp

theorem segmentTimestamp_ok_iff (uri : List Char) (t : Int) :
    segmentTimestamp uri = .ok t ↔
      ∃ ds, FindStringSubmatch uri = some ds ∧ decimal ds < 2 ^ 63 ∧ t = (decimal ds : Int) := by
  unfold segmentTimestamp
  cases hf : FindStringSubmatch uri with
  | none => simp
  | some ds =>
    obtain ⟨_, _, _, hd, _⟩ := FindStringSubmatch_some uri ds hf
    simp only [parseInt64, ParseInt_digits ds hd, Option.some.injEq, exists_eq_left']
    by_cases hlt : decimal ds < 2 ^ 63
    · rw [if_pos hlt]
      simp only [hlt, Except.ok.injEq, true_and]
      exact eq_comm
    · rw [if_neg hlt]
      simp only [false_iff, not_and, reduceCtorEq]
      intro h
      exact absurd h hlt

theorem digitVal_digitChar (k : Nat) (hk : k < 10) : digitVal (Nat.digitChar k) = k := by
  interval_cases k <;> rfl

theorem decimalFrom_toDigitsCore (fuel : Nat) :
    ∀ (n : Nat) (ds : List Char), n < fuel →
      decimalFrom 0 (Nat.toDigitsCore 10 fuel n ds) = decimalFrom n ds := by
  induction fuel with
  | zero => intro n ds h; omega
  | succ fuel ih =>
    intro n ds h
    have hd : digitVal (Nat.digitChar (n % 10)) = n % 10 :=
      digitVal_digitChar _ (Nat.mod_lt _ (by norm_num))
    simp only [Nat.toDigitsCore]
    by_cases h0 : n / 10 = 0
    · simp only [h0, if_true, decimalFrom, List.foldl_cons, hd]
      have : 0 * 10 + n % 10 = n := by omega
      rw [this]
    · simp only [h0, if_false]
      rw [ih (n / 10) _ (by omega)]
      simp only [decimalFrom, List.foldl_cons, hd]
      have : n / 10 * 10 + n % 10 = n := by omega
      rw [this]

theorem decimal_Itoa (n : Nat) : decimal (Itoa n) = n := by
  simp only [decimal, Itoa, Nat.toDigits]
  rw [decimalFrom_toDigitsCore (n + 1) n [] (by omega)]
  rfl

theorem ring_Counted (c w : Nat) (xs : List MediaSegment) : (ring c w xs).Counted := by
  unfold MediaPlaylist.Counted
  rw [ring_present]
  exact Nat.le_refl _

theorem outgoingPlaylist_complete (start «end» : Int) (M : MediaPlaylist) (hM : M.Counted)
    (hall : ∀ g ∈ M.present, ∃ t, segmentTimestamp g.URI = .ok t) :
    outgoingPlaylist start «end» M
      = .ok (finished «end» M (M.present.filter (keeps start «end»))) := by
  have hall1 : ∀ g ∈ M.Segments.reduceOption,
      ∃ b, shouldIncludeSegment (some g) start «end» = .ok b := by
    intro g hg
    obtain ⟨t, ht⟩ := hall g hg
    exact ⟨_, (shouldIncludeSegment_ok_iff g start «end» _).2 ⟨t, ht, rfl⟩⟩
  have hlen : ([] : List MediaSegment).length +
      (M.Segments.reduceOption.filter (included start «end»)).length ≤ M.count := by
    have h1 := List.length_filter_le (included start «end») M.Segments.reduceOption
    have h2 : M.Segments.reduceOption.length ≤ M.count := hM
    simp only [List.length_nil, Nat.zero_add]
    omega
  have hloop := filterLoop_complete start «end» M.count M.count M.Segments [] hlen hall1
  have hfil := filter_included_eq_keeps start «end» M.present hall1
  unfold outgoingPlaylist
  rw [MediaPlaylist.Count, NewMediaPlaylist_eq]
  simp only [hloop, List.nil_append]
  have hp : M.Segments.reduceOption = M.present := rfl
  rw [hp, hfil]
  by_cases hc : «end» > 0 ∨ M.Closed = true
  · simp [finished, hc, MediaPlaylist.Close, ring]
  · simp [finished, hc, ring]

theorem keeps_of_wider (start «end» start2 end2 : Int) (h : Wider start «end» start2 end2)
    (g : MediaSegment) (hk : keeps start «end» g = true) : keeps start2 end2 g = true := by
  unfold keeps at hk ⊢
  cases hts : segmentTimestamp g.URI with
  | error err => simp [hts] at hk
  | ok t =>
    simp only [hts, decide_eq_true_eq, inWindow] at hk ⊢
    obtain ⟨h1, h2⟩ := h
    constructor
    · rcases h1 with h1 | h1
      · exact Or.inl h1
      · rcases hk.1 with h3 | h3
        · left; omega
        · right; omega
    · rcases h2 with h2 | h2
      · exact Or.inl h2
      · rcases hk.2 with h3 | h3
        · omega
        · right; omega

theorem keeps_zero (g : MediaSegment) (t : Int) (h : segmentTimestamp g.URI = .ok t) :
    keeps 0 0 g = true := by
  simp [keeps, h, inWindow]

theorem recoverable_of_keeps_zero (g : MediaSegment) (h : keeps 0 0 g = true) :
    ∃ t, segmentTimestamp g.URI = .ok t := by
  unfold keeps at h
  cases hts : segmentTimestamp g.URI with
  | error err => simp [hts] at h
  | ok t => exact ⟨t, rfl⟩

theorem window_zero (r : Response)
    (hs : r.Query.Has START_KEY = true) (hsv : r.Query.Get START_KEY = "0".toList)
    (he : r.Query.Has END_KEY = true) (hev : r.Query.Get END_KEY = "0".toList) :
    window r = .ok (0, 0) := by
  have h0 : ParseInt "0".toList = .ok 0 := by decide
  simp only [window, int64QueryPart, hs, hsv, he, hev, parseInt64, h0, if_true]

theorem parseUintLoop_result (ds : List Char) :
    ∀ n : Nat, n < 2 ^ 64 →
      ((parseUintLoop ds n).2 = none → ∀ c ∈ ds, isDigit c = true) ∧
      ((parseUintLoop ds n).2 = some .ErrRange → (parseUintLoop ds n).1 = maxUint64) := by
  induction ds with
  | nil => intro n _; simp [parseUintLoop]
  | cons c cs ih =>
    intro n hn
    unfold parseUintLoop
    by_cases hc : isDigit c = true
    · simp only [hc, if_true]
      split_ifs with hcut hov
      · simp
      · simp
      · obtain ⟨h1, h2⟩ := ih ((n * 10 % 2 ^ 64 + digitVal c) % 2 ^ 64)
          (Nat.mod_lt _ (by norm_num))
        refine ⟨fun h x hx => ?_, h2⟩
        rcases List.mem_cons.1 hx with rfl | hx
        · exact hc
        · exact h1 h x hx
    · simp [hc]

theorem ParseUint_digits (ds : List Char) (hd : IsDigits ds) :
    ParseUint ds =
      if decimal ds < 2 ^ 64 then (decimal ds, none) else (maxUint64, some .ErrRange) := by
  unfold ParseUint
  rw [if_neg hd.1]
  exact parseUintLoop_digits ds 0 hd.2 (by norm_num)

theorem ParseUint_result (ds : List Char) :
    ((ParseUint ds).2 = none → IsDigits ds) ∧
    ((ParseUint ds).2 = some .ErrRange → (ParseUint ds).1 = maxUint64) := by
  unfold ParseUint
  by_cases hnil : ds = []
  · simp [hnil]
  · rw [if_neg hnil]
    obtain ⟨h1, h2⟩ := parseUintLoop_result ds 0 (by norm_num)
    exact ⟨fun h => ⟨hnil, h1 h⟩, h2⟩

theorem ParseInt_cons (c : Char) (cs : List Char) :
    ParseInt (c :: cs) =
      match ParseUint (if c = '+' ∨ c = '-' then cs else c :: cs) with
      | (_, some .ErrSyntax) => .error .ErrSyntax
      | (un, _) =>
        if ¬ (decide (c = '-')) = true ∧ un ≥ 2 ^ 63 then .error .ErrRange
        else if (decide (c = '-')) = true ∧ un > 2 ^ 63 then .error .ErrRange
        else .ok (if (decide (c = '-')) = true then - (un : Int) else (un : Int)) := rfl

/-- The outcome of `ParseInt` on a sign flag and the unsigned part, once `ParseUint`
has read a run of digits. -/
theorem ParseInt_signed (c : Char) (cs ds : List Char) (hd : IsDigits ds)
    (hds : (if c = '+' ∨ c = '-' then cs else c :: cs) = ds) (v : Int) :
    ParseInt (c :: cs) = .ok v ↔
      (c ≠ '-' ∧ decimal ds < 2 ^ 63 ∧ v = (decimal ds : Int)) ∨
      (c = '-' ∧ decimal ds ≤ 2 ^ 63 ∧ v = - (decimal ds : Int)) := by
  rw [ParseInt_cons, hds, ParseUint_digits ds hd]
  by_cases hneg : c = '-'
  · by_cases hlt : decimal ds < 2 ^ 64
    · rw [if_pos hlt]
      simp only [hneg, decide_True, not_true_eq_false, false_and, if_false, true_and, if_true,
        ne_eq, false_or]
      by_cases h63 : decimal ds > 2 ^ 63
      · rw [if_pos h63]
        constructor
        · intro h; cases h
        · rintro ⟨h, _⟩; omega
      · rw [if_neg h63]
        constructor
        · intro h
          injection h with h
          exact ⟨by omega, h.symm⟩
        · rintro ⟨_, h⟩; rw [h]
    · rw [if_neg hlt]
      have hmax : maxUint64 > 2 ^ 63 := by decide
      simp only [hneg, decide_True, not_true_eq_false, false_and, if_false, true_and, hmax,
        if_true, ne_eq, false_or]
      constructor
      · intro h; cases h
      · rintro ⟨h, _⟩; omega
  · by_cases hlt : decimal ds < 2 ^ 64
    · rw [if_pos hlt]
      simp only [hneg, decide_False, Bool.false_eq_true, not_false_eq_true, true_and, false_and,
        if_false, ne_eq, or_false]
      by_cases h63 : decimal ds ≥ 2 ^ 63
      · rw [if_pos h63]
        constructor
        · intro h; cases h
        · rintro ⟨h, _⟩; omega
      · rw [if_neg h63]
        constructor
        · intro h
          injection h with h
          exact ⟨by omega, h.symm⟩
        · rintro ⟨_, h⟩; rw [h]
    · rw [if_neg hlt]
      have hmax : maxUint64 ≥ 2 ^ 63 := by decide
      simp only [hneg, decide_False, Bool.false_eq_true, not_false_eq_true, true_and, hmax,
        if_true, ne_eq, false_and, or_false]
      constructor
      · intro h; cases h
      · rintro ⟨h, _⟩; omega

theorem ParseInt_error_of_not_digits (c : Char) (cs : List Char)
    (h : ¬ IsDigits (if c = '+' ∨ c = '-' then cs else c :: cs)) :
    ∃ err, ParseInt (c :: cs) = .error err := by
  rw [ParseInt_cons]
  obtain ⟨h1, h2⟩ := ParseUint_result (if c = '+' ∨ c = '-' then cs else c :: cs)
  cases hpu : ParseUint (if c = '+' ∨ c = '-' then cs else c :: cs) with
  | mk un e =>
    rw [hpu] at h1 h2
    cases e with
    | none => exact absurd (h1 rfl) h
    | some ne =>
      cases ne with
      | ErrSyntax => exact ⟨_, rfl⟩
      | ErrRange =>
        have hun : un = maxUint64 := h2 rfl
        subst hun
        have hmax : maxUint64 > 2 ^ 63 := by decide
        have hmax2 : maxUint64 ≥ 2 ^ 63 := by decide
        by_cases hneg : c = '-'
        · simp only [hneg, decide_True, not_true_eq_false, false_and, if_false, true_and, hmax,
            if_true]
          exact ⟨_, rfl⟩
        · simp only [hneg, decide_False, Bool.false_eq_true, not_false_eq_true, true_and, hmax2,
            if_true]
          exact ⟨_, rfl⟩

theorem ParseInt_ok_iff (s : List Char) (v : Int) :
    ParseInt s = .ok v ↔ Denotes s v ∧ InInt64 v := by
  cases s with
  | nil =>
    constructor
    · intro h; simp [ParseInt] at h
    · rintro ⟨⟨ds, hd, h⟩, _⟩
      rcases h with ⟨h, _⟩ | ⟨h, _⟩ | ⟨h, _⟩
      · exact absurd h.symm hd.1
      · cases h
      · cases h
  | cons c cs =>
    have hplus : ¬ isDigit '+' = true := by decide
    have hminus : ¬ isDigit '-' = true := by decide
    have hpm : ('+' : Char) ≠ '-' := by decide
    constructor
    · intro h
      by_cases hd : IsDigits (if c = '+' ∨ c = '-' then cs else c :: cs)
      · rcases (ParseInt_signed c cs _ hd rfl v).1 h with ⟨hneg, hlt, hv⟩ | ⟨hneg, hle, hv⟩
        · refine ⟨⟨_, hd, ?_⟩, ?_⟩
          · by_cases hp : c = '+'
            · right; left
              subst hp
              simp only [true_or, if_true] at hv ⊢
              exact ⟨trivial, hv⟩
            · left
              simp only [hp, hneg, or_self, if_false] at hv ⊢
              exact ⟨trivial, hv⟩
          · unfold InInt64
            constructor
            · rw [hv]
              have : (0 : Int) ≤ (decimal (if c = '+' ∨ c = '-' then cs else c :: cs) : Int) :=
                Int.natCast_nonneg _
              omega
            · rw [hv]; exact_mod_cast hlt
        · refine ⟨⟨_, hd, ?_⟩, ?_⟩
          · right; right
            subst hneg
            simp only [or_true, if_true] at hv ⊢
            exact ⟨trivial, hv⟩
          · unfold InInt64
            have h1 : (decimal (if c = '+' ∨ c = '-' then cs else c :: cs) : Int) ≤ 2 ^ 63 := by
              exact_mod_cast hle
            have h2 : (0 : Int) ≤ (decimal (if c = '+' ∨ c = '-' then cs else c :: cs) : Int) :=
              Int.natCast_nonneg _
            constructor
            · rw [hv]; omega
            · rw [hv]; omega
      · obtain ⟨err, herr⟩ := ParseInt_error_of_not_digits c cs hd
        rw [herr] at h
        cases h
    · rintro ⟨⟨ds, hd, h⟩, hlo, hhi⟩
      rcases h with ⟨hs, hv⟩ | ⟨hs, hv⟩ | ⟨hs, hv⟩
      · have hc : isDigit c = true := hd.2 c (by rw [← hs]; exact List.mem_cons_self _ _)
        have h1 : c ≠ '+' := by rintro rfl; exact hplus hc
        have h2 : c ≠ '-' := by rintro rfl; exact hminus hc
        apply (ParseInt_signed c cs ds hd (by simp [h1, h2, hs]) v).2
        left
        refine ⟨h2, ?_, hv⟩
        rw [hv] at hhi
        exact_mod_cast hhi
      · simp only [List.cons.injEq] at hs
        obtain ⟨rfl, rfl⟩ := hs
        apply (ParseInt_signed '+' cs cs hd (by simp) v).2
        left
        refine ⟨hpm, ?_, hv⟩
        rw [hv] at hhi
        exact_mod_cast hhi
      · simp only [List.cons.injEq] at hs
        obtain ⟨rfl, rfl⟩ := hs
        apply (ParseInt_signed '-' cs cs hd (by simp) v).2
        right
        refine ⟨rfl, ?_, hv⟩
        rw [hv] at hlo
        have : (decimal cs : Int) ≤ 2 ^ 63 := by omega
        exact_mod_cast this

theorem ParseInt_total (s : List Char) :
    (∃ v, ParseInt s = .ok v) ∨ (∃ err, ParseInt s = .error err) := by
  cases h : ParseInt s with
  | ok v => exact Or.inl ⟨v, rfl⟩
  | error err => exact Or.inr ⟨err, rfl⟩

theorem lowerASCII_toNat_lt (c : Char) (h : 65 ≤ c.toNat ∧ c.toNat ≤ 90) :
    (Char.ofNat (c.toNat + 32)).toNat < 128 := by
  obtain ⟨h1, h2⟩ := h
  generalize c.toNat = n at h1 h2
  interval_cases n <;> decide

theorem toLowerRune_of_lowerASCII (lib : Lib) (a b : Char)
    (h : lowerASCII a = lowerASCII b) : toLowerRune lib a = toLowerRune lib b := by
  unfold lowerASCII at h
  unfold toLowerRune
  by_cases ha : 65 ≤ a.toNat ∧ a.toNat ≤ 90
  · have ha1 : a.toNat < 128 := by omega
    by_cases hb : 65 ≤ b.toNat ∧ b.toNat ≤ 90
    · have hb1 : b.toNat < 128 := by omega
      rw [if_pos ha, if_pos hb] at h
      rw [if_pos ha1, if_pos ha, if_pos hb1, if_pos hb]
      exact h
    · rw [if_pos ha, if_neg hb] at h
      have hb1 : b.toNat < 128 := by
        rw [← h]; exact lowerASCII_toNat_lt a ha
      rw [if_pos ha1, if_pos ha, if_pos hb1, if_neg hb]
      exact h
  · by_cases hb : 65 ≤ b.toNat ∧ b.toNat ≤ 90
    · have hb1 : b.toNat < 128 := by omega
      rw [if_neg ha, if_pos hb] at h
      have ha1 : a.toNat < 128 := by
        rw [h]; exact lowerASCII_toNat_lt b hb
      rw [if_pos ha1, if_neg ha, if_pos hb1, if_pos hb]
      exact h
    · rw [if_neg ha, if_neg hb] at h
      rw [h]

theorem ToLower_of_caseVariant (lib : Lib) (s s2 : List Char) (h : CaseVariant s s2) :
    ToLower lib s = ToLower lib s2 := by
  unfold CaseVariant at h
  unfold ToLower
  induction s generalizing s2 with
  | nil =>
    cases s2 with
    | nil => rfl
    | cons b bs => simp at h
  | cons a as ih =>
    cases s2 with
    | nil => simp at h
    | cons b bs =>
      simp only [List.map_cons, List.cons.injEq] at h ⊢
      exact ⟨toLowerRune_of_lowerASCII lib a b h.1, ih bs h.2⟩

theorem ToLower_ascii (lib lib2 : Lib) (s : List Char) (h : ∀ c ∈ s, c.toNat < 128) :
    ToLower lib s = ToLower lib2 s := by
  unfold ToLower
  apply List.map_congr_left
  intro c hc
  simp [toLowerRune, h c hc]

/-! ## the claims -/

/-- C1: when `handleMediaPlaylist` succeeds, every segment of the outgoing playlist
has a timestamp that is at least `start` if `start > 0` and at most `end` if
`end > 0`, and the outgoing segment sequence is a subsequence of the incoming one
(same relative order, no segment more often than in the input). -/
theorem media_filter_sound (lib : Lib) (r r1 : Response) (M : MediaPlaylist)
    (h : handleMediaPlaylist lib r M = .returned r1 none) :
    ∃ start «end» out, window r = .ok (start, «end») ∧
      outgoingPlaylist start «end» M = .ok out ∧ r1.Body = lib.EncodeMedia out ∧
      (∀ g ∈ out.present, ∃ t, segmentTimestamp g.URI = .ok t ∧
        (start > 0 → t ≥ start) ∧ («end» > 0 → t ≤ «end»)) ∧
      out.present.Sublist M.present ∧
      ∀ g, out.present.count g ≤ M.present.count g := by
  obtain ⟨start, «end», out, hw, ho, hr⟩ := handleMediaPlaylist_ok lib r r1 M h
  obtain ⟨ys, hout, _, hsub, _⟩ := outgoingPlaylist_ok start «end» M out ho
  have hp : out.present = ys := by rw [hout, finished_present]
  have hsub1 : ys.Sublist M.present := hsub.trans (List.filter_sublist _)
  refine ⟨start, «end», out, hw, ho, by rw [hr], ?_, by rw [hp]; exact hsub1, ?_⟩
  · intro g hg
    rw [hp] at hg
    have hmem := hsub.subset hg
    have hinc : included start «end» g = true := (List.mem_filter.1 hmem).2
    have hok : shouldIncludeSegment (some g) start «end» = .ok true := by
      simpa [included] using hinc
    obtain ⟨t, ht, hb⟩ := (shouldIncludeSegment_ok_iff g start «end» true).1 hok
    have hwin : inWindow start «end» t := by simpa using hb.symm
    refine ⟨t, ht, ?_, ?_⟩
    · intro hs; rcases hwin.1 with h0 | h0 <;> omega
    · intro he; rcases hwin.2 with h0 | h0 <;> omega
  · intro g
    rw [hp]
    exact hsub1.count_le g

/-- Witness of C1 on scenario A (`seg-100.ts, seg-200.ts, seg-300.ts` with
`?start=150&end=250`). -/
theorem media_filter_sound_witness :
    ∃ start «end» out, window (request queryA) = .ok (start, «end») ∧
      outgoingPlaylist start «end» scenarioA = .ok out ∧
      rewrittenA.Body = demoLib.EncodeMedia out ∧
      (∀ g ∈ out.present, ∃ t, segmentTimestamp g.URI = .ok t ∧
        (start > 0 → t ≥ start) ∧ («end» > 0 → t ≤ «end»)) ∧
      out.present.Sublist scenarioA.present ∧
      ∀ g, out.present.count g ≤ scenarioA.present.count g :=
  media_filter_sound demoLib (request queryA) rewrittenA scenarioA (by decide)

/-- C2: on a playlist that counts its segments, when `handleMediaPlaylist`
succeeds the outgoing segment list is exactly the list of present incoming segments
whose timestamp `t` satisfies `(start <= 0 or t >= start) and (end <= 0 or t <= end)`,
in the original order; a timestamp equal to a bound is kept. -/
theorem media_filter_complete (lib : Lib) (r r1 : Response) (M : MediaPlaylist)
    (hM : M.Counted) (h : handleMediaPlaylist lib r M = .returned r1 none) :
    ∃ start «end» out, window r = .ok (start, «end») ∧
      outgoingPlaylist start «end» M = .ok out ∧ r1.Body = lib.EncodeMedia out ∧
      (∀ g ∈ M.present, ∃ t, segmentTimestamp g.URI = .ok t) ∧
      out.present = M.present.filter (keeps start «end») := by
  obtain ⟨start, «end», out, hw, ho, hr⟩ := handleMediaPlaylist_ok lib r r1 M h
  obtain ⟨ys, hout, _, _, hall⟩ := outgoingPlaylist_ok start «end» M out ho
  refine ⟨start, «end», out, hw, ho, by rw [hr], ?_, ?_⟩
  · intro g hg
    obtain ⟨b, hb⟩ := hall g hg
    obtain ⟨t, ht, _⟩ := (shouldIncludeSegment_ok_iff g start «end» b).1 hb
    exact ⟨t, ht⟩
  · have hlen : ([] : List MediaSegment).length +
        (M.Segments.reduceOption.filter (included start «end»)).length ≤ M.count := by
      have h1 := List.length_filter_le (included start «end») M.Segments.reduceOption
      have h2 : M.Segments.reduceOption.length ≤ M.count := hM
      simp only [List.length_nil, Nat.zero_add]
      omega
    have hloop := filterLoop_complete start «end» M.count M.count M.Segments [] hlen hall
    have ho2 := ho
    unfold outgoingPlaylist at ho2
    rw [MediaPlaylist.Count, NewMediaPlaylist_eq] at ho2
    simp only [hloop, List.nil_append, Filtered.ok.injEq] at ho2
    rw [← ho2]
    rw [← filter_included_eq_keeps start «end» M.present hall]
    by_cases hc : «end» > 0 ∨ M.Closed = true
    · simp [hc, MediaPlaylist.Close, MediaPlaylist.present, ring, reduceOption_map_some_append]
    · simp [hc, MediaPlaylist.present, ring, reduceOption_map_some_append]

/-- Witness of C2, scenario A: `seg-100.ts, seg-200.ts, seg-300.ts` with
`?start=150&end=250` give exactly `[seg-200.ts]` and `Closed = true`. -/
theorem media_filter_complete_witness :
    (∃ start «end» out, window (request queryA) = .ok (start, «end») ∧
      outgoingPlaylist start «end» scenarioA = .ok out ∧
      rewrittenA.Body = demoLib.EncodeMedia out ∧
      (∀ g ∈ scenarioA.present, ∃ t, segmentTimestamp g.URI = .ok t) ∧
      out.present = scenarioA.present.filter (keeps start «end»)) ∧
    window (request queryA) = .ok (150, 250) ∧
    (∃ out, outgoingPlaylist 150 250 scenarioA = .ok out ∧
      out.present = [seg "seg-200.ts"] ∧ out.Closed = true) :=
  ⟨media_filter_complete demoLib (request queryA) rewrittenA scenarioA (by decide) (by decide),
   by decide,
   ⟨finished 250 scenarioA [seg "seg-200.ts"], by decide, by decide, by decide⟩⟩

/-- C3: on a playlist that counts its segments and holds a present segment whose
URI has no recoverable timestamp, `handleMediaPlaylist` returns an error for every
request (every window), wherever that segment sits, and the response is left as it
was: body, `ContentLength` and headers are untouched. -/
theorem unrecoverable_timestamp_fails (lib : Lib) (r : Response) (M : MediaPlaylist)
    (hM : M.Counted)
    (hbad : ∃ g ∈ M.present, ∃ err, segmentTimestamp g.URI = .error err) :
    ∃ err, handleMediaPlaylist lib r M = .returned r (some err) := by
  unfold handleMediaPlaylist
  cases hw : window r with
  | error err => exact ⟨err, rfl⟩
  | ok se =>
    obtain ⟨start, «end»⟩ := se
    simp only
    have hpos : 0 < M.count := by
      obtain ⟨g, hg, _⟩ := hbad
      have h1 : 0 < M.present.length := List.length_pos_of_mem hg
      have h2 : M.present.length ≤ M.count := hM
      omega
    have hbad1 : ∃ g ∈ M.Segments.reduceOption, ∃ err,
        shouldIncludeSegment (some g) start «end» = .error err := by
      obtain ⟨g, hg, err, herr⟩ := hbad
      exact ⟨g, hg, err, (shouldIncludeSegment_error_iff g start «end» err).2 herr⟩
    obtain ⟨err, herr⟩ :=
      filterLoop_error start «end» M.count M.count hpos M.Segments [] (by simp) hbad1
    refine ⟨err, ?_⟩
    unfold outgoingPlaylist
    rw [MediaPlaylist.Count, NewMediaPlaylist_eq]
    simp only [herr]

/-- Witness of C3, scenario D: `live_segment.ts` among the segments fails the
rewrite and leaves the response alone. -/
theorem unrecoverable_timestamp_fails_witness :
    ∃ err, handleMediaPlaylist demoLib (request queryA) scenarioD
      = .returned (request queryA) (some err) :=
  unrecoverable_timestamp_fails demoLib (request queryA) scenarioD (by decide)
    ⟨seg "live_segment.ts", by decide, .segmentTime "live_segment.ts".toList, by decide⟩

/-- C4: when `handleMediaPlaylist` succeeds, the outgoing playlist is closed if and
only if the incoming playlist was closed or `end > 0`. -/
theorem closed_flag_rule (lib : Lib) (r r1 : Response) (M : MediaPlaylist)
    (h : handleMediaPlaylist lib r M = .returned r1 none) :
    ∃ start «end» out, window r = .ok (start, «end») ∧
      outgoingPlaylist start «end» M = .ok out ∧ r1.Body = lib.EncodeMedia out ∧
      (out.Closed = true ↔ (M.Closed = true ∨ «end» > 0)) := by
  obtain ⟨start, «end», out, hw, ho, hr⟩ := handleMediaPlaylist_ok lib r r1 M h
  obtain ⟨ys, hout, _, _, _⟩ := outgoingPlaylist_ok start «end» M out ho
  refine ⟨start, «end», out, hw, ho, by rw [hr], ?_⟩
  rw [hout]
  simp only [finished, decide_eq_true_eq]
  exact Or.comm

/-- Witness of C4 on scenario A: the incoming playlist is open, `end = 250`, the
outgoing one is closed. -/
theorem closed_flag_rule_witness :
    ∃ start «end» out, window (request queryA) = .ok (start, «end») ∧
      outgoingPlaylist start «end» scenarioA = .ok out ∧
      rewrittenA.Body = demoLib.EncodeMedia out ∧
      (out.Closed = true ↔ (scenarioA.Closed = true ∨ «end» > 0)) :=
  closed_flag_rule demoLib (request queryA) rewrittenA scenarioA (by decide)

/-- C5: a response whose request has neither a `start` nor an `end` key comes back
from `modifyResponse` without an error and identical to the upstream response,
whatever its content type and body and whatever the codec would do with it. -/
theorem skip_path_untouched (lib : Lib) (resp : Response)
    (hs : resp.Query.Has START_KEY = false) (he : resp.Query.Has END_KEY = false) :
    modifyResponse lib resp = .returned resp none := by
  simp [modifyResponse, hs, he]

/-- A manifest response that no decoder accepts, asked for without window keys. -/
theorem skip_path_untouched_witness :
    modifyResponse demoLib (request queryNone) = .returned (request queryNone) none :=
  skip_path_untouched demoLib (request queryNone) (by decide) (by decide)

/-- C10: when `handleMasterPlaylist` or `handleMediaPlaylist` returns without an
error, the new body is the serialized rewritten playlist, `ContentLength` is the
byte length of that body and the `Content-Length` header is the base-10 rendering
of the same length (one value, `Itoa` of the length, which reads back as the length). -/
theorem framing_matches_body (lib : Lib) (r r1 : Response) (playlist : MasterPlaylist)
    (M : MediaPlaylist) :
    (handleMasterPlaylist lib r playlist = .returned r1 none →
      r1.Body = lib.EncodeMaster (rewriteMaster r.Query playlist) ∧
      r1.ContentLength = (r1.Body.length : Int) ∧
      r1.Header.index "Content-Length".toList = some [Itoa r1.Body.length] ∧
      decimal (r1.Header.Get "Content-Length".toList) = r1.Body.length) ∧
    (handleMediaPlaylist lib r M = .returned r1 none →
      (∃ start «end» out, window r = .ok (start, «end») ∧
        outgoingPlaylist start «end» M = .ok out ∧ r1.Body = lib.EncodeMedia out) ∧
      r1.ContentLength = (r1.Body.length : Int) ∧
      r1.Header.index "Content-Length".toList = some [Itoa r1.Body.length] ∧
      decimal (r1.Header.Get "Content-Length".toList) = r1.Body.length) := by
  constructor
  · intro h
    simp only [handleMasterPlaylist, Outcome.returned.injEq, and_true] at h
    subst h
    exact ⟨rfl, rfl, by simp [StrMap.Set, StrMap.index_assign],
      by simp only [StrMap.Get_Set, decimal_Itoa]⟩
  · intro h
    obtain ⟨start, «end», out, hw, ho, hr⟩ := handleMediaPlaylist_ok lib r r1 M h
    subst hr
    exact ⟨⟨start, «end», out, hw, ho, rfl⟩, rfl, by simp [StrMap.Set, StrMap.index_assign],
      by simp only [StrMap.Get_Set, decimal_Itoa]⟩

/-- C9: when the media filter succeeds with output `out`, filtering `out` again for
the same request succeeds too and yields the same segment sequence and the same
`Closed` flag. -/
theorem filter_idempotent (lib : Lib) (r r1 : Response) (M : MediaPlaylist)
    (h : handleMediaPlaylist lib r M = .returned r1 none) :
    ∃ start «end» out out2 r2, window r = .ok (start, «end») ∧
      outgoingPlaylist start «end» M = .ok out ∧ r1.Body = lib.EncodeMedia out ∧
      handleMediaPlaylist lib r out = .returned r2 none ∧
      outgoingPlaylist start «end» out = .ok out2 ∧ r2.Body = lib.EncodeMedia out2 ∧
      out2.present = out.present ∧ out2.Closed = out.Closed := by
  obtain ⟨start, «end», out, hw, ho, hr⟩ := handleMediaPlaylist_ok lib r r1 M h
  obtain ⟨ys, hout, _, hsub, _⟩ := outgoingPlaylist_ok start «end» M out ho
  have hinc : ∀ g ∈ ys, shouldIncludeSegment (some g) start «end» = .ok true := by
    intro g hg
    have := (List.mem_filter.1 (hsub.subset hg)).2
    simpa [included] using this
  have hfil : ys.filter (included start «end») = ys := by
    apply List.filter_eq_self.2
    intro g hg
    simp [included, hinc g hg]
  have hsegs : out.Segments.reduceOption = ys := by
    rw [hout]; exact finished_present «end» M ys
  have hcount : out.count = ys.length := by rw [hout]; rfl
  have hloop := filterLoop_complete start «end» ys.length ys.length out.Segments []
    (by rw [hsegs, hfil]; simp)
    (by rw [hsegs]; exact fun g hg => ⟨true, hinc g hg⟩)
  rw [hsegs, hfil, List.nil_append] at hloop
  have ho2 : outgoingPlaylist start «end» out = .ok (finished «end» out ys) := by
    unfold outgoingPlaylist
    rw [MediaPlaylist.Count, NewMediaPlaylist_eq, hcount]
    simp only [hloop]
    by_cases hc : «end» > 0 ∨ out.Closed = true
    · simp [finished, hc, MediaPlaylist.Close, ring, hcount]
    · simp [finished, hc, ring, hcount]
  refine ⟨start, «end», out, finished «end» out ys,
    { r with Body := lib.EncodeMedia (finished «end» out ys),
             ContentLength := ((lib.EncodeMedia (finished «end» out ys)).length : Int),
             Header := r.Header.Set "Content-Length".toList
               (Itoa (lib.EncodeMedia (finished «end» out ys)).length) },
    hw, ho, by rw [hr], ?_, ho2, rfl, ?_, ?_⟩
  · simp only [handleMediaPlaylist, hw, ho2]
  · rw [finished_present, ← hsegs]; rfl
  · rw [hout]
    simp only [finished, decide_eq_true_eq]
    by_cases he : «end» > 0 <;> simp [he]

/-- Witness of C9 on scenario A. -/
theorem filter_idempotent_witness :
    ∃ start «end» out out2 r2, window (request queryA) = .ok (start, «end») ∧
      outgoingPlaylist start «end» scenarioA = .ok out ∧
      rewrittenA.Body = demoLib.EncodeMedia out ∧
      handleMediaPlaylist demoLib (request queryA) out = .returned r2 none ∧
      outgoingPlaylist start «end» out = .ok out2 ∧ r2.Body = demoLib.EncodeMedia out2 ∧
      out2.present = out.present ∧ out2.Closed = out.Closed :=
  filter_idempotent demoLib (request queryA) rewrittenA scenarioA (by decide)

/-- Witness of C10 on scenario A: the body has one byte, `ContentLength` is 1 and
the header reads `1`. -/
theorem framing_matches_body_witness :
    (∃ start «end» out, window (request queryA) = .ok (start, «end») ∧
        outgoingPlaylist start «end» scenarioA = .ok out ∧
        rewrittenA.Body = demoLib.EncodeMedia out) ∧
      rewrittenA.ContentLength = (rewrittenA.Body.length : Int) ∧
      rewrittenA.Header.index "Content-Length".toList = some [Itoa rewrittenA.Body.length] ∧
      decimal (rewrittenA.Header.Get "Content-Length".toList) = rewrittenA.Body.length :=
  (framing_matches_body demoLib (request queryA) rewrittenA
    { Variants := [], Args := [] } scenarioA).2 (by decide)

/-- C6, as the code has it: for a recognized manifest that decodes to a media
playlist, a `start` or `end` key whose first value is not a base-10 signed 64-bit
integer makes the rewrite fail with the parse error; the value is not defaulted,
`ContentLength` and the headers stay as received and the body is the drained reader,
not a rewritten manifest. -/
theorem malformed_window_fails_media (lib : Lib) (resp : Response) (M : MediaPlaylist)
    (hp : isPlaylist lib resp = true)
    (hd : lib.DecodeFrom resp.Body = .ok (.media M, MEDIA))
    (hbad : (resp.Query.Has START_KEY = true ∧
        ∃ cause, ParseInt (resp.Query.Get START_KEY) = .error cause) ∨
      (resp.Query.Has END_KEY = true ∧
        ∃ cause, ParseInt (resp.Query.Get END_KEY) = .error cause)) :
    ∃ raw cause, modifyResponse lib resp
      = .returned { resp with Body := [] } (some (.parseTime raw cause)) := by
  have hq : resp.Query.Has START_KEY = true ∨ resp.Query.Has END_KEY = true := by
    rcases hbad with ⟨h, _⟩ | ⟨h, _⟩
    · exact Or.inl h
    · exact Or.inr h
  obtain ⟨raw, cause, hw⟩ := window_error { resp with Body := [] } hbad
  refine ⟨raw, cause, ?_⟩
  have hne : MEDIA ≠ MASTER := by decide
  simp only [modifyResponse, hq, not_true_eq_false, if_false, hp, if_true, handlePlaylist, hd,
    hne, handleMediaPlaylist, hw]

/-- Witness of the amended C6: `?start=abc` on the media manifest of scenario A. -/
theorem malformed_window_fails_media_witness :
    ∃ raw cause, modifyResponse mediaLib (request queryAbc)
      = .returned { request queryAbc with Body := [] } (some (.parseTime raw cause)) :=
  malformed_window_fails_media mediaLib (request queryAbc) scenarioA (by decide) (by decide)
    (Or.inl ⟨by decide, .ErrSyntax, by decide⟩)

/-- C6 fails on a master manifest: with `?start=abc` the response is a recognized
manifest, `start` is present and does not parse, and still `modifyResponse` returns
no error and installs a rewritten body that carries `start=abc` on. -/
theorem malformed_window_master_counterexample :
    isPlaylist masterLib (request queryAbc) = true ∧
    (request queryAbc).Query.Has START_KEY = true ∧
    ParseInt ((request queryAbc).Query.Get START_KEY) = .error .ErrSyntax ∧
    modifyResponse masterLib (request queryAbc) = .returned rewrittenAbc none ∧
    rewrittenAbc.Body = masterLib.EncodeMaster
      { Variants := ["v.m3u8".toList], Args := "start=abc".toList } := by
  decide

/-- C8: the `Args` string `handleMasterPlaylist` stores is the URL-encoding of the
request query restricted to the keys `start` and `end`: the `end` items then the
`start` items, one `key=value` per value of the request, each value the request's
own string, joined by `&`, and nothing of any other parameter. Two requests that
agree on `start` and `end` give the same `Args`, and `?start=100` gives `start=100`. -/
theorem master_args_are_window_keys (query : StrMap) (playlist : MasterPlaylist) :
    (rewriteMaster query playlist).Args = (restrict query).Encode ∧
    (rewriteMaster query playlist).Args
      = List.intercalate ['&'] (encodeKey query END_KEY ++ encodeKey query START_KEY) ∧
    (∀ query2 : StrMap, query2.index START_KEY = query.index START_KEY →
      query2.index END_KEY = query.index END_KEY →
      (rewriteMaster query2 playlist).Args = (rewriteMaster query playlist).Args) ∧
    (rewriteMaster query playlist).Variants = playlist.Variants ∧
    (rewriteMaster queryStart100 playlist).Args = "start=100".toList := by
  refine ⟨?_, ?_, ?_, rfl, ?_⟩
  · simp only [rewriteMaster]
    rw [additionalArgs_Encode, restrict_Encode]
  · simp only [rewriteMaster]
    rw [additionalArgs_Encode]
  · intro query2 hs he
    simp only [rewriteMaster, additionalArgs, hs, he]
  · simp only [rewriteMaster]
    decide

/-- Witness of C8: `?start=100&token=abc` and `?start=100` agree on `start` and
`end`, so both give `Args = start=100`; the parameter `token` is not passed on. -/
theorem master_args_are_window_keys_witness :
    (rewriteMaster (("token".toList, ["abc".toList]) :: queryStart100)
        { Variants := ["v.m3u8".toList], Args := [] }).Args
      = (rewriteMaster queryStart100 { Variants := ["v.m3u8".toList], Args := [] }).Args :=
  (master_args_are_window_keys queryStart100 { Variants := ["v.m3u8".toList], Args := [] }).2.2.1
    (("token".toList, ["abc".toList]) :: queryStart100) (by decide) (by decide)

/-- C7, as the code has it: a timestamp recovered from a URI is the decimal value of
a run of digits that stands between a hyphen and a `.`, with no further
hyphen-digits-dot before the next line feed; for a URI without a line feed the
timestamp `t` is recovered exactly when the URI reads text, hyphen, digit run, `.`,
rest, where the rest holds no further hyphen-digits-dot (the hyphen is the last such
one) and the value of the run is `t`, at most `2^63 - 1`. -/
theorem timestamp_follows_last_hyphen (uri : List Char) (t : Int) :
    (segmentTimestamp uri = .ok t →
      ∃ pre ds ext, uri = pre ++ '-' :: (ds ++ '.' :: ext) ∧ IsDigits ds ∧ ¬ LineToken ext ∧
        decimal ds < 2 ^ 63 ∧ t = (decimal ds : Int)) ∧
    (newline ∉ uri →
      (segmentTimestamp uri = .ok t ↔
        ∃ pre ds ext, uri = pre ++ '-' :: (ds ++ '.' :: ext) ∧ IsDigits ds ∧ ¬ HasToken ext ∧
          decimal ds < 2 ^ 63 ∧ t = (decimal ds : Int))) := by
  have hfirst : segmentTimestamp uri = .ok t →
      ∃ pre ds ext, uri = pre ++ '-' :: (ds ++ '.' :: ext) ∧ IsDigits ds ∧ ¬ LineToken ext ∧
        decimal ds < 2 ^ 63 ∧ t = (decimal ds : Int) := by
    intro h
    obtain ⟨ds, hf, hlt, ht⟩ := (segmentTimestamp_ok_iff uri t).1 h
    obtain ⟨pre, ext, hs, hd, hl⟩ := FindStringSubmatch_some uri ds hf
    exact ⟨pre, ds, ext, hs, hd, hl, hlt, ht⟩
  refine ⟨hfirst, fun hn => ⟨?_, ?_⟩⟩
  · intro h
    obtain ⟨pre, ds, ext, hs, hd, hl, hlt, ht⟩ := hfirst h
    refine ⟨pre, ds, ext, hs, hd, ?_, hlt, ht⟩
    have hne : newline ∉ ext := by
      intro hm
      apply hn
      rw [hs]
      exact List.mem_append_right _ (List.mem_cons_of_mem _
        (List.mem_append_right _ (List.mem_cons_of_mem _ hm)))
    exact fun ht1 => hl ((lineToken_iff_hasToken ext hne).2 ht1)
  · rintro ⟨pre, ds, ext, hs, hd, hl, hlt, ht⟩
    rw [hs] at hn
    have hf := FindStringSubmatch_last_token pre ds ext hd hn hl
    rw [hs]
    exact (segmentTimestamp_ok_iff _ t).2 ⟨ds, hf, hlt, ht⟩

/-- Witness of the amended C7: `chunk-000123.ts` gives 123. -/
theorem timestamp_follows_last_hyphen_witness :
    segmentTimestamp "chunk-000123.ts".toList = .ok 123 :=
  ((timestamp_follows_last_hyphen "chunk-000123.ts".toList 123).2 (by decide)).2
    ⟨"chunk".toList, "000123".toList, "ts".toList, by decide, ⟨by decide, by decide⟩,
      (FindStringSubmatch_none_iff _).1 (by decide), by decide, by decide⟩

/-- C7 fails as stated: `seg100.ts` has the shape text, digit run, `.`, extension and
yields no timestamp (there is no hyphen), and `seg-5.tar.gz` yields 5 although no
digit stands before its final extension `.gz`. -/
theorem timestamp_shape_counterexample :
    (¬ ∀ text ds ext : List Char, IsDigits ds →
        ∃ t, segmentTimestamp (text ++ ds ++ '.' :: ext) = .ok t) ∧
    segmentTimestamp "seg100.ts".toList = .error (.segmentTime "seg100.ts".toList) ∧
    segmentTimestamp "seg-5.tar.gz".toList = .ok 5 := by
  refine ⟨?_, by decide, by decide⟩
  intro h
  obtain ⟨t, ht⟩ := h "seg".toList "100".toList "ts".toList ⟨by decide, by decide⟩
  have hne : segmentTimestamp ("seg".toList ++ "100".toList ++ '.' :: "ts".toList)
      = .error (.segmentTime "seg100.ts".toList) := by decide
  rw [hne] at ht
  cases ht

/-- C14: a response whose content type is not a recognized manifest type comes back
from `modifyResponse` without an error and unchanged (body, `ContentLength`,
headers), whatever the request query holds, malformed `start`/`end` values
included. -/
theorem non_manifest_untouched (lib : Lib) (resp : Response)
    (hp : isPlaylist lib resp = false) :
    modifyResponse lib resp = .returned resp none := by
  simp [modifyResponse, hp]

/-- Witness of C14: a `video/mp2t` segment file fetched with `?start=abc`. -/
theorem non_manifest_untouched_witness :
    modifyResponse mediaLib (segmentFile queryAbc) = .returned (segmentFile queryAbc) none :=
  non_manifest_untouched mediaLib (segmentFile queryAbc) (by decide)

/-- C16: when `handleMediaPlaylist` succeeds, the outgoing playlist carries the
incoming playlist's `SeqNo` and `DiscontinuitySeq`, whatever was filtered out. -/
theorem sequence_numbers_copied (lib : Lib) (r r1 : Response) (M : MediaPlaylist)
    (h : handleMediaPlaylist lib r M = .returned r1 none) :
    ∃ start «end» out, window r = .ok (start, «end») ∧
      outgoingPlaylist start «end» M = .ok out ∧ r1.Body = lib.EncodeMedia out ∧
      out.SeqNo = M.SeqNo ∧ out.DiscontinuitySeq = M.DiscontinuitySeq := by
  obtain ⟨start, «end», out, hw, ho, hr⟩ := handleMediaPlaylist_ok lib r r1 M h
  obtain ⟨ys, hout, _, _, _⟩ := outgoingPlaylist_ok start «end» M out ho
  refine ⟨start, «end», out, hw, ho, by rw [hr], ?_, ?_⟩
  · rw [hout]; rfl
  · rw [hout]; rfl

/-- Witness of C16 on scenario A, where the leading segment is dropped. -/
theorem sequence_numbers_copied_witness :
    ∃ start «end» out, window (request queryA) = .ok (start, «end») ∧
      outgoingPlaylist start «end» scenarioA = .ok out ∧
      rewrittenA.Body = demoLib.EncodeMedia out ∧
      out.SeqNo = scenarioA.SeqNo ∧ out.DiscontinuitySeq = scenarioA.DiscontinuitySeq :=
  sequence_numbers_copied demoLib (request queryA) rewrittenA scenarioA (by decide)

/-- C12, as the code has it: when the first value of a present `end` key is a
positive integer, the rewritten media manifest is closed, whether the incoming one
was open or closed. -/
theorem positive_end_closes (lib : Lib) (r r1 : Response) (M : MediaPlaylist) (e : Int)
    (hk : r.Query.Has END_KEY = true) (hv : ParseInt (r.Query.Get END_KEY) = .ok e)
    (hpos : 0 < e) (h : handleMediaPlaylist lib r M = .returned r1 none) :
    ∃ start out, window r = .ok (start, e) ∧
      outgoingPlaylist start e M = .ok out ∧ r1.Body = lib.EncodeMedia out ∧
      out.Closed = true := by
  obtain ⟨start, «end», out, hw, ho, hr⟩ := handleMediaPlaylist_ok lib r r1 M h
  have he : «end» = e := by
    unfold window at hw
    cases hs : int64QueryPart r START_KEY 0 with
    | error err => simp [hs] at hw
    | ok s =>
      have hend : int64QueryPart r END_KEY 0 = .ok e := by
        simp [int64QueryPart, hk, parseInt64, hv]
      rw [hs, hend] at hw
      simp only [Except.ok.injEq, Prod.mk.injEq] at hw
      exact hw.2.symm
  subst he
  obtain ⟨ys, hout, _, _, _⟩ := outgoingPlaylist_ok start «end» M out ho
  refine ⟨start, out, hw, ho, by rw [hr], ?_⟩
  rw [hout]
  simp [finished, hpos]

/-- Witness of the amended C12 on scenario A (`end=250`, an open manifest). -/
theorem positive_end_closes_witness :
    ∃ start out, window (request queryA) = .ok (start, 250) ∧
      outgoingPlaylist start 250 scenarioA = .ok out ∧
      rewrittenA.Body = demoLib.EncodeMedia out ∧ out.Closed = true :=
  positive_end_closes demoLib (request queryA) rewrittenA scenarioA 250
    (by decide) (by decide) (by decide) (by decide)

/-- C12 fails for a negative value: with `?end=-5` the key is present with a
nonzero integer and the rewrite of the open manifest of scenario A succeeds, yet
the outgoing playlist is left open. -/
theorem negative_end_counterexample :
    (request queryNegativeEnd).Query.Has END_KEY = true ∧
    ParseInt ((request queryNegativeEnd).Query.Get END_KEY) = .ok (-5) ∧
    scenarioA.Closed = false ∧
    (∃ r1, handleMediaPlaylist demoLib (request queryNegativeEnd) scenarioA
      = .returned r1 none) ∧
    (∃ out, outgoingPlaylist 0 (-5) scenarioA = .ok out ∧ out.Closed = false) := by
  refine ⟨by decide, by decide, by decide, ?_, ?_⟩
  · exact ⟨{ request queryNegativeEnd with
        Body := [10, 10, 10], ContentLength := 3,
        Header := [("Content-Type".toList, ["application/x-mpegurl".toList]),
                   ("Content-Length".toList, ["3".toList])] }, by decide⟩
  · exact ⟨finished (-5) scenarioA scenarioA.present, by decide, by decide⟩

/-- C18: on a playlist that counts its segments and whose present segments all have
a recoverable timestamp, the filter succeeds for every window, and when the window
`(start2, end2)` is at least as wide as `(start, end)` (a smaller positive `start`,
a larger positive `end`, or a bound replaced by 0 or a negative value) every segment
kept for `(start, end)` is kept for `(start2, end2)`, in the same order. -/
theorem window_monotone (M : MediaPlaylist) (start «end» start2 end2 : Int)
    (hM : M.Counted) (hall : ∀ g ∈ M.present, ∃ t, segmentTimestamp g.URI = .ok t)
    (hw : Wider start «end» start2 end2) :
    ∃ out out2, outgoingPlaylist start «end» M = .ok out ∧
      outgoingPlaylist start2 end2 M = .ok out2 ∧
      out.present.Sublist out2.present ∧ ∀ g ∈ out.present, g ∈ out2.present := by
  have hsub : (M.present.filter (keeps start «end»)).Sublist
      (M.present.filter (keeps start2 end2)) :=
    List.monotone_filter_right M.present (fun g hg => keeps_of_wider _ _ _ _ hw g hg)
  refine ⟨_, _, outgoingPlaylist_complete start «end» M hM hall,
    outgoingPlaylist_complete start2 end2 M hM hall, ?_, ?_⟩
  · rw [finished_present, finished_present]; exact hsub
  · rw [finished_present, finished_present]; exact fun g hg => hsub.subset hg

/-- Witness of C18 on scenario A: from `(150, 250)` to `(0, 300)`. -/
theorem window_monotone_witness :
    ∃ out out2, outgoingPlaylist 150 250 scenarioA = .ok out ∧
      outgoingPlaylist 0 300 scenarioA = .ok out2 ∧
      out.present.Sublist out2.present ∧ ∀ g ∈ out.present, g ∈ out2.present :=
  window_monotone scenarioA 150 250 0 300 (by decide)
    (fun g hg => recoverable_of_keeps_zero g (by revert g hg; decide))
    ⟨Or.inl (by decide), Or.inr ⟨by decide, by decide⟩⟩

/-- C11: with `start=0` and `end=0` present as keys a recognized manifest does not
take the Skip path: `modifyResponse` is `handlePlaylist`, so the body is decoded (a
decoding failure is returned); and a media manifest that counts its segments, all
with a recoverable timestamp, is rewritten to a playlist that holds all its present
segments in order and has the incoming `Closed` flag. -/
theorem explicit_zero_bounds (lib : Lib) (resp : Response)
    (hs : resp.Query.Has START_KEY = true) (hsv : resp.Query.Get START_KEY = "0".toList)
    (he : resp.Query.Has END_KEY = true) (hev : resp.Query.Get END_KEY = "0".toList)
    (hp : isPlaylist lib resp = true) :
    modifyResponse lib resp = handlePlaylist lib resp ∧
    (∀ err, lib.DecodeFrom resp.Body = .error err →
      modifyResponse lib resp = .returned { resp with Body := [] } (some (.decoding err))) ∧
    (∀ M, lib.DecodeFrom resp.Body = .ok (.media M, MEDIA) → M.Counted →
      (∀ g ∈ M.present, ∃ t, segmentTimestamp g.URI = .ok t) →
      ∃ out, outgoingPlaylist 0 0 M = .ok out ∧ out.present = M.present ∧
        out.Closed = M.Closed ∧
        modifyResponse lib resp = .returned
          { resp with Body := lib.EncodeMedia out,
                      ContentLength := ((lib.EncodeMedia out).length : Int),
                      Header := resp.Header.Set "Content-Length".toList
                        (Itoa (lib.EncodeMedia out).length) } none) := by
  have hmod : modifyResponse lib resp = handlePlaylist lib resp := by
    simp [modifyResponse, hs, hp]
  refine ⟨hmod, ?_, ?_⟩
  · intro err hd
    rw [hmod]
    simp [handlePlaylist, hd]
  · intro M hd hM hall
    have hw : window { resp with Body := [] } = .ok (0, 0) :=
      window_zero { resp with Body := [] } hs hsv he hev
    have ho := outgoingPlaylist_complete 0 0 M hM hall
    have hfil : M.present.filter (keeps 0 0) = M.present := by
      apply List.filter_eq_self.2
      intro g hg
      obtain ⟨t, ht⟩ := hall g hg
      exact keeps_zero g t ht
    rw [hfil] at ho
    have hne : MEDIA ≠ MASTER := by decide
    refine ⟨finished 0 M M.present, ho, finished_present 0 M M.present, ?_, ?_⟩
    · cases hc : M.Closed <;> simp [finished, hc]
    · rw [hmod]
      simp only [handlePlaylist, hd, hne, if_false, if_true, handleMediaPlaylist, hw, ho]

/-- Witness of C11: `seg-100.ts, seg-200.ts, seg-300.ts` are all three kept and the
playlist stays open. -/
theorem explicit_zero_bounds_witness :
    ∃ out, outgoingPlaylist 0 0 scenarioA = .ok out ∧ out.present = scenarioA.present ∧
      out.Closed = scenarioA.Closed ∧
      modifyResponse mediaLib (request queryZero) = .returned
        { Body := mediaLib.EncodeMedia out,
          ContentLength := ((mediaLib.EncodeMedia out).length : Int),
          Header := (request queryZero).Header.Set "Content-Length".toList
            (Itoa (mediaLib.EncodeMedia out).length),
          Query := queryZero } none :=
  (explicit_zero_bounds mediaLib (request queryZero) (by decide) (by decide) (by decide)
    (by decide) (by decide)).2.2 scenarioA (by decide) (by decide)
    (fun g hg => recoverable_of_keeps_zero g (by revert g hg; decide))

/-- C15: `int64QueryPart` leaves the bound at 0 without an error when the key is
absent; when the key is present the bound becomes `v` exactly when the key's first
value is a base-10 numeral for `v` (optional sign, digits) and `v` fits int64, and
an error is returned exactly when the value is no such numeral; a present `0` gives
the bound 0 of the absent key. -/
theorem bound_extraction (r : Response) (key : List Char) (v : Int) :
    (r.Query.Has key = false → int64QueryPart r key 0 = .ok 0) ∧
    (r.Query.Has key = true →
      (int64QueryPart r key 0 = .ok v ↔ Denotes (r.Query.Get key) v ∧ InInt64 v) ∧
      ((∃ err, int64QueryPart r key 0 = .error err) ↔
        ¬ ∃ w, Denotes (r.Query.Get key) w ∧ InInt64 w)) ∧
    (∀ x xs, r.Query.index key = some (x :: xs) →
      r.Query.Has key = true ∧ r.Query.Get key = x) ∧
    (r.Query.Has key = true → r.Query.Get key = "0".toList →
      int64QueryPart r key 0 = .ok 0) := by
  refine ⟨?_, ?_, ?_, ?_⟩
  · intro h
    simp [int64QueryPart, h]
  · intro h
    have hq : int64QueryPart r key 0 = parseInt64 (r.Query.Get key) := by
      simp [int64QueryPart, h]
    rw [hq]
    constructor
    · rw [← ParseInt_ok_iff]
      unfold parseInt64
      cases hp : ParseInt (r.Query.Get key) with
      | error err => simp
      | ok w => simp
    · constructor
      · rintro ⟨err, herr⟩ ⟨w, hw⟩
        have hpw := (ParseInt_ok_iff _ w).2 hw
        simp [parseInt64, hpw] at herr
      · intro hno
        unfold parseInt64
        cases hp : ParseInt (r.Query.Get key) with
        | error err => exact ⟨_, rfl⟩
        | ok w => exact absurd ⟨w, (ParseInt_ok_iff _ w).1 hp⟩ hno
  · intro x xs h
    simp [StrMap.Has, StrMap.Get, h]
  · intro h h0
    have hp : ParseInt "0".toList = .ok 0 := by decide
    simp only [int64QueryPart, h, if_true, h0, parseInt64, hp]

/-- Witness of C15: `start=+7` gives the bound 7, `end=9223372036854775808` is out
of range and gives an error, and `?start=0&end=0` gives the window of a request
without the keys. -/
theorem bound_extraction_witness :
    int64QueryPart (request queryEdge) START_KEY 0 = .ok 7 ∧
    (∃ err, int64QueryPart (request queryEdge) END_KEY 0 = .error err) ∧
    window (request queryZero) = window (request queryNone) :=
  ⟨((bound_extraction (request queryEdge) START_KEY 7).2.1 (by decide)).1.2
      ⟨⟨"7".toList, ⟨by decide, by decide⟩, Or.inr (Or.inl ⟨by decide, by decide⟩)⟩,
        by decide, by decide⟩,
   ⟨_, (by decide : int64QueryPart (request queryEdge) END_KEY 0
      = .error (.parseTime "9223372036854775808".toList .ErrRange))⟩,
   by decide⟩

/-- C17: for a segment whose URI holds no line feed, `shouldIncludeSegment` returns
an error exactly when the URI holds no hyphen immediately followed by digits and a
`.`, or the digit run after the last such hyphen has a value above `2^63 - 1`;
otherwise the timestamp is the decimal value of that digit run and the segment is
tested against the window with it. -/
theorem timestamp_failure_exact (g : MediaSegment) (start «end» : Int)
    (hn : newline ∉ g.URI) :
    ((∃ err, shouldIncludeSegment (some g) start «end» = .error err) ↔
      (¬ HasToken g.URI ∨
        ∃ pre ds ext, g.URI = pre ++ '-' :: (ds ++ '.' :: ext) ∧ IsDigits ds ∧
          ¬ HasToken ext ∧ decimal ds > 2 ^ 63 - 1)) ∧
    (∀ pre ds ext, g.URI = pre ++ '-' :: (ds ++ '.' :: ext) → IsDigits ds →
      ¬ HasToken ext → decimal ds ≤ 2 ^ 63 - 1 →
      segmentTimestamp g.URI = .ok (decimal ds : Int) ∧
      shouldIncludeSegment (some g) start «end»
        = .ok (decide (inWindow start «end» (decimal ds : Int)))) := by
  have hok : ∀ pre ds ext, g.URI = pre ++ '-' :: (ds ++ '.' :: ext) → IsDigits ds →
      ¬ HasToken ext → decimal ds ≤ 2 ^ 63 - 1 →
      segmentTimestamp g.URI = .ok (decimal ds : Int) := by
    intro pre ds ext hs hd hl hle
    have hn1 := hn
    rw [hs] at hn1
    have hf := FindStringSubmatch_last_token pre ds ext hd hn1 hl
    rw [← hs] at hf
    exact (segmentTimestamp_ok_iff _ _).2 ⟨ds, hf, by omega, rfl⟩
  constructor
  · constructor
    · rintro ⟨err, herr⟩
      have hts := (shouldIncludeSegment_error_iff g start «end» err).1 herr
      by_cases ht : HasToken g.URI
      · right
        cases hf : FindStringSubmatch g.URI with
        | none => exact absurd ht ((FindStringSubmatch_none_iff _).1 hf)
        | some ds =>
          obtain ⟨pre, ext, hs, hd, hl⟩ := FindStringSubmatch_some _ _ hf
          have hne : newline ∉ ext := by
            intro hm
            apply hn
            rw [hs]
            exact List.mem_append_right _ (List.mem_cons_of_mem _
              (List.mem_append_right _ (List.mem_cons_of_mem _ hm)))
          have hl2 : ¬ HasToken ext := fun h => hl ((lineToken_iff_hasToken ext hne).2 h)
          refine ⟨pre, ds, ext, hs, hd, hl2, ?_⟩
          by_contra hle
          have := hok pre ds ext hs hd hl2 (by omega)
          rw [this] at hts
          cases hts
      · exact Or.inl ht
    · rintro (hno | ⟨pre, ds, ext, hs, hd, hl, hgt⟩)
      · refine ⟨.segmentTime g.URI, (shouldIncludeSegment_error_iff g start «end» _).2 ?_⟩
        simp [segmentTimestamp, (FindStringSubmatch_none_iff _).2 hno]
      · have hn1 := hn
        rw [hs] at hn1
        have hf := FindStringSubmatch_last_token pre ds ext hd hn1 hl
        rw [← hs] at hf
        have hp : ParseInt ds = .error .ErrRange := by
          rw [ParseInt_digits ds hd, if_neg (by omega)]
        refine ⟨.parseTime ds .ErrRange, (shouldIncludeSegment_error_iff g start «end» _).2 ?_⟩
        simp [segmentTimestamp, hf, parseInt64, hp]
  · intro pre ds ext hs hd hl hle
    have hts := hok pre ds ext hs hd hl hle
    exact ⟨hts, (shouldIncludeSegment_ok_iff g start «end» _).2 ⟨_, hts, rfl⟩⟩

/-- Witness of C17: `seg100.ts` (no hyphen) and `seg-99999999999999999999.ts`
(overflow) both give an error. -/
theorem timestamp_failure_exact_witness :
    (∃ err, shouldIncludeSegment (some (seg "seg100.ts")) 150 250 = .error err) ∧
    (∃ err, shouldIncludeSegment (some (seg "seg-99999999999999999999.ts")) 150 250
      = .error err) :=
  ⟨(timestamp_failure_exact (seg "seg100.ts") 150 250 (by decide)).1.2
      (Or.inl ((FindStringSubmatch_none_iff _).1 (by decide))),
   (timestamp_failure_exact (seg "seg-99999999999999999999.ts") 150 250 (by decide)).1.2
      (Or.inr ⟨"seg".toList, "99999999999999999999".toList, "ts".toList, by decide,
        ⟨by decide, by decide⟩, (FindStringSubmatch_none_iff _).1 (by decide), by decide⟩)⟩

/-- C13: `isPlaylist` is true exactly when the lower-cased `Content-Type` value is
`application/x-mpegurl` or `application/vnd.apple.mpegurl`; two values that differ
only in the case of their letters are classified alike; a missing or empty content
type and a recognized type followed by parameters are not playlists. -/
theorem playlist_classifier (lib : Lib) (r : Response) :
    (isPlaylist lib r = true ↔
      (ToLower lib (r.Header.Get contentTypeKey) = "application/x-mpegurl".toList ∨
       ToLower lib (r.Header.Get contentTypeKey) = "application/vnd.apple.mpegurl".toList)) ∧
    (∀ r2 : Response, CaseVariant (r2.Header.Get contentTypeKey) (r.Header.Get contentTypeKey) →
      isPlaylist lib r2 = isPlaylist lib r) ∧
    (r.Header.index contentTypeKey = none → isPlaylist lib r = false) ∧
    (r.Header.Get contentTypeKey = [] → isPlaylist lib r = false) ∧
    (r.Header.Get contentTypeKey = "application/x-mpegurl; charset=utf-8".toList →
      isPlaylist lib r = false) := by
  have hget : ∀ r0 : Response, isPlaylist lib r0
      = decide (ToLower lib (r0.Header.Get contentTypeKey) ∈ playlistContentTypes) := fun _ => rfl
  refine ⟨?_, ?_, ?_, ?_, ?_⟩
  · rw [hget]
    simp [playlistContentTypes]
  · intro r2 h
    rw [hget, hget, ToLower_of_caseVariant lib _ _ h]
  · intro h
    rw [hget]
    have : r.Header.Get contentTypeKey = [] := by simp [StrMap.Get, h]
    rw [this]
    rfl
  · intro h
    rw [hget, h]
    rfl
  · intro h
    rw [hget, h, ToLower_ascii lib demoLib _ (by decide)]
    decide

/-- Witness of C13: `APPLICATION/X-MpegURL` is a case variant of
`application/x-mpegurl` and is classified as a playlist. -/
theorem playlist_classifier_witness :
    isPlaylist demoLib (typed "APPLICATION/X-MpegURL")
      = isPlaylist demoLib (typed "application/x-mpegurl") ∧
    isPlaylist demoLib (typed "APPLICATION/X-MpegURL") = true :=
  ⟨(playlist_classifier demoLib (typed "application/x-mpegurl")).2.1
      (typed "APPLICATION/X-MpegURL") (by decide),
   (playlist_classifier demoLib (typed "APPLICATION/X-MpegURL")).1.2 (Or.inl (by decide))⟩

end Proxy
